import Mathlib

/-!
Verification development for the WIKICLUSTER repository.

This file gives a shallow embedding of the graph-store operations of
`src/App.tsx` (`handleDeleteNode`, the `setGraphData` updaters of
`handleNodeClick` and `handleSearchSubmit`), of the pure part of the
Wikipedia fetch adapter (`fetchWikiLinks` in the `src/types.ts` bundle),
and of the label/highlight callbacks of the `NetworkGraph` component
(`src/unnamed/part_000`), and proves theorems about them.

Modelling conventions:
* JavaScript numbers are modelled as `ℚ`; an `undefined` coordinate is
  `Option.none`.  The one place the source can produce `NaN`
  (`child.y = centerNode.y + …` when `centerNode.y` is `undefined`,
  App.tsx line 200) is modelled as an undefined coordinate; no claim
  depends on the position of a freshly seeded child.
* A JS `Map` keyed by node id (resp. by the string `` s + "->" + t ``)
  is modelled as a list with insert-or-replace-in-place semantics,
  which is exactly the iteration-order behaviour of `Map.set` /
  `Map.values()`.
* `Math.random()`-based jitter is a parameter (`jit`, `cjit`): the
  source draws fresh random offsets, our functions receive them.
* Links in the store are modelled with string endpoints; every consumer
  in App.tsx first normalises `l.source`/`l.target` to the id string,
  so nothing is lost.
-/

namespace WikiCluster

inductive Group where
  | main
  | sub
deriving DecidableEq, Repr

structure WikiNode where
  id : String
  group : Group
  url : String
  source : Option String
  description : Option String
  x : Option ℚ
  y : Option ℚ
deriving DecidableEq, Repr

structure WikiLink where
  source : String
  target : String
  value : ℚ
deriving DecidableEq, Repr

structure GraphData where
  nodes : List WikiNode
  links : List WikiLink
deriving DecidableEq, Repr

/-- JS `Map.set` keyed by `WikiNode.id`: replace in place if the key is
present, append otherwise (`Map` iteration preserves first-insertion
order, and `Map.set` on an existing key keeps its position). -/
def nodeMapSet (m : List WikiNode) (n : WikiNode) : List WikiNode :=
  if m.any (fun p => p.id == n.id) then m.map (fun p => if p.id == n.id then n else p)
  else m ++ [n]

/-- `const nodeMap = new Map(); prevData.nodes.forEach(n => nodeMap.set(n.id, n))`. -/
def buildNodeMap (nodes : List WikiNode) : List WikiNode :=
  nodes.foldl nodeMapSet []

/-- `const getLinkId = (s, t) => s + "->" + t` (App.tsx lines 95, 209). -/
def getLinkId (s t : String) : String := s ++ "->" ++ t

/-- The key under which a link is stored in the link map. -/
def linkKey (l : WikiLink) : String := getLinkId l.source l.target

def linkMapHasKey (lm : List WikiLink) (k : String) : Bool :=
  lm.any (fun p => linkKey p == k)

/-- JS `Map.set` keyed by `getLinkId(source, target)`. -/
def linkMapSet (lm : List WikiLink) (l : WikiLink) : List WikiLink :=
  if linkMapHasKey lm (linkKey l) then lm.map (fun p => if linkKey p == linkKey l then l else p)
  else lm ++ [l]

/-- `// Keep existing valid links` (App.tsx lines 98–104 / 212–218):
every previous link whose endpoints are both in the node map is written
into the fresh link map. -/
def preserveLinks (nm : List WikiNode) (prevLinks : List WikiLink) : List WikiLink :=
  prevLinks.foldl (fun lm l =>
    if nm.any (fun p => p.id == l.source) && nm.any (fun p => p.id == l.target) then
      linkMapSet lm ⟨l.source, l.target, l.value⟩
    else lm) []

/-- `// Add new links from the API response` (App.tsx lines 107–115 /
221–227): one center→target link per fetched link whose target is in
the node map, skipped when the key is already present. -/
def addBatchLinks (centerId : String) (nm : List WikiNode) (links : List WikiLink)
    (lm0 : List WikiLink) : List WikiLink :=
  links.foldl (fun lm l =>
    if nm.any (fun p => p.id == l.target) then
      if linkMapHasKey lm (getLinkId centerId l.target) then lm
      else linkMapSet lm ⟨centerId, l.target, 1⟩
    else lm) lm0

/-- `// Check for connections between the new main node and EXISTING
main nodes` (App.tsx lines 118–127 / 230–237). -/
def addCrossMainLinks (centerId : String) (nm : List WikiNode) (dataNodes : List WikiNode)
    (lm1 : List WikiLink) : List WikiLink :=
  nm.foldl (fun lm pt =>
    if pt.group == Group.main && pt.id != centerId &&
        dataNodes.any (fun n => n.id == pt.id) then
      if linkMapHasKey lm (getLinkId centerId pt.id) then lm
      else linkMapSet lm ⟨centerId, pt.id, 1⟩
    else lm) lm1

/-- The three-stage link rebuild performed identically by both merge
updaters (App.tsx lines 93–127 and 207–237). -/
def rebuildLinks (centerId : String) (nm : List WikiNode) (prevLinks : List WikiLink)
    (data : GraphData) : List WikiLink :=
  addCrossMainLinks centerId nm data.nodes
    (addBatchLinks centerId nm data.links (preserveLinks nm prevLinks))

/-- Addition of a jitter offset to a possibly-undefined coordinate
(`undefined + x` would be `NaN` in JS; modelled as undefined). -/
def jsAddOpt (a : Option ℚ) (b : ℚ) : Option ℚ := a.map (· + b)

/-- The `forEach` over batch children shared by both merge updaters
(App.tsx lines 81–91 and 196–205): skip children whose id is already in
the node map, insert the others transformed by the updater-specific
seeding `tr`. -/
def childFold (tr : WikiNode → WikiNode) (children : List WikiNode)
    (init : List WikiNode) : List WikiNode :=
  children.foldl (fun nm child =>
    if nm.any (fun p => p.id == child.id) then nm
    else nodeMapSet nm (tr child)) init

/-- Child seeding of the expand updater (App.tsx lines 83–88): position
near the clicked parent only when the parent exists and both of its
coordinates are defined; `source` always set to the clicked id. -/
def seedNearParent (parent? : Option WikiNode) (srcId : String) (jit : String → ℚ × ℚ)
    (child : WikiNode) : WikiNode :=
  let child1 := match parent? with
    | some en =>
        match en.x, en.y with
        | some ex, some ey =>
            { child with x := some (ex + (jit child.id).1),
                         y := some (ey + (jit child.id).2) }
        | _, _ => child
    | none => child
  { child1 with source := some srcId }

/-- Child seeding of the search updater (App.tsx lines 197–202): the
guard tests only `centerNode.x`; `y` is `center.y + jitter`, which in JS
is `NaN` when `center.y` is undefined (modelled as undefined). -/
def seedNearCenter (center : WikiNode) (jit : String → ℚ × ℚ) (child : WikiNode) :
    WikiNode :=
  let child1 := match center.x with
    | some cx =>
        { child with x := some (cx + (jit child.id).1),
                     y := jsAddOpt center.y (jit child.id).2 }
    | none => child
  { child1 with source := some center.id }

/-- The in-place promotion of the clicked node (App.tsx lines 71–77):
set its group to Main and, when the batch is non-empty, overwrite its
description with the batch center's. -/
def promoteCenter (nodeId : String) (newData : GraphData) (nm0 : List WikiNode) :
    List WikiNode :=
  match nm0.find? (fun n => n.id == nodeId) with
  | some en =>
      let en' := match newData.nodes with
        | [] => { en with group := Group.main }
        | n0 :: _ => { en with group := Group.main, description := n0.description }
      nodeMapSet nm0 en'
  | none => nm0

/-- The node map produced by the expand updater. -/
def expandNodeMap (nodeId : String) (newData : GraphData) (jit : String → ℚ × ℚ)
    (prev : GraphData) : List WikiNode :=
  childFold
    (seedNearParent ((buildNodeMap prev.nodes).find? (fun n => n.id == nodeId)) nodeId jit)
    (newData.nodes.drop 1)
    (promoteCenter nodeId newData (buildNodeMap prev.nodes))

/-- The `setGraphData` updater of `handleNodeClick` for a Sub node
(App.tsx lines 65–130): promote the clicked node to Main, overwrite its
description with the batch center's when the batch is non-empty, insert
unseen batch children as Sub seeded near the parent, and rebuild links.
`jit` supplies the `(Math.random() - 0.5) * 50` offsets per child id. -/
def expandUpdate (nodeId : String) (newData : GraphData) (jit : String → ℚ × ℚ)
    (prev : GraphData) : GraphData :=
  ⟨expandNodeMap nodeId newData jit prev,
   rebuildLinks nodeId (expandNodeMap nodeId newData jit prev) prev.links newData⟩

/-- `handleNodeClick` (App.tsx lines 48–139): a Main node is only
focused (graph untouched); a Sub node triggers a fetch, and on fetch
success the updater runs — with no emptiness check on the batch.
`fetched = none` models a fetch that threw (caught, graph untouched). -/
def handleNodeClick (node : WikiNode) (fetched : Option GraphData) (jit : String → ℚ × ℚ)
    (g : GraphData) : GraphData :=
  match node.group with
  | Group.main => g
  | Group.sub =>
      match fetched with
      | some newData => expandUpdate node.id newData jit g
      | none => g

/-- Center resolution of the search updater (App.tsx lines 174–193):
reuse an existing node (promoting it when Sub), else insert the fetched
center as Main, randomly placed when the graph was non-empty. -/
def resolveCenter (newMainNode : WikiNode) (gIsEmpty : Bool) (cjit : ℚ × ℚ)
    (nm0 : List WikiNode) : WikiNode × List WikiNode :=
  match nm0.find? (fun n => n.id == newMainNode.id) with
  | some existingCanonical =>
      if existingCanonical.group == Group.sub then
        let c := { existingCanonical with
                   group := Group.main, description := newMainNode.description }
        (c, nodeMapSet nm0 c)
      else (existingCanonical, nm0)
  | none =>
      let c0 := { newMainNode with group := Group.main }
      let c := if gIsEmpty then c0
               else { c0 with x := some cjit.1, y := some cjit.2 }
      (c, nodeMapSet nm0 c)

/-- The `setGraphData` updater of `handleSearchSubmit`
(App.tsx lines 167–240).  `cjit` supplies the
`(Math.random() - 0.5) * 200` offsets for a brand-new center placed into
a non-empty graph; `jit` the per-child seeding offsets. -/
def searchMerge (data : GraphData) (cjit : ℚ × ℚ) (jit : String → ℚ × ℚ)
    (g : GraphData) : GraphData :=
  match data.nodes with
  | [] => g
  | newMainNode0 :: children =>
    let newMainNode := if g.nodes.isEmpty then { newMainNode0 with source := some "ROOT" }
                       else newMainNode0
    let cm := resolveCenter newMainNode g.nodes.isEmpty cjit (buildNodeMap g.nodes)
    let nm2 := childFold (seedNearCenter cm.1 jit) children cm.2
    ⟨nm2, rebuildLinks cm.1.id nm2 g.links data⟩

/-- The fetch-result handling of `handleSearchSubmit`
(App.tsx lines 163–168): a successful fetch with zero nodes throws
`"No data found"` before `setGraphData` runs, so the graph is unchanged. -/
def handleSearchApply (data : GraphData) (cjit : ℚ × ℚ) (jit : String → ℚ × ℚ)
    (g : GraphData) : GraphData :=
  if data.nodes.isEmpty then g else searchMerge data cjit jit g

/-- `(g.nodes.filter (group main)).map id`, the Main nodes other than the
deletion target (App.tsx line 269). -/
def otherMainIds (g : GraphData) (nodeId : String) : List String :=
  (g.nodes.filter (fun n => n.group == Group.main && n.id != nodeId)).map (·.id)

/-- The one-hop test used twice inside `handleDeleteNode`
(App.tsx lines 271–277 and 294–300). -/
def linkTouchesMain (l : WikiLink) (nodeId : String) (mains : List String) : Bool :=
  if l.source == nodeId then mains.contains l.target
  else if l.target == nodeId then mains.contains l.source
  else false

/-- `isConnectedToOtherMain` (App.tsx lines 271–277). -/
def isConnectedToOtherMain (g : GraphData) (nodeId : String) : Bool :=
  g.links.any (fun l => linkTouchesMain l nodeId (otherMainIds g nodeId))

/-- `candidateNodes` (App.tsx line 283): drop the target, or demote it
in place when `shouldDemote`. -/
def candidateNodesOf (prev : GraphData) (nodeId : String) (shouldDemote : Bool) :
    List WikiNode :=
  prev.nodes.filterMap (fun n =>
    if n.id == nodeId then
      (if shouldDemote then some { n with group := Group.sub } else none)
    else some n)

/-- `currentMainNodeIds` (App.tsx line 288). -/
def currentMainIdsOf (candidates : List WikiNode) : List String :=
  (candidates.filter (fun n => n.group == Group.main)).map (·.id)

/-- `finalNodes` (App.tsx lines 291–301): keep every Main node, and
every other node with a one-hop pre-existing link to a current Main. -/
def finalNodesOf (prev : GraphData) (candidates : List WikiNode) : List WikiNode :=
  candidates.filter (fun n =>
    n.group == Group.main ||
      prev.links.any (fun l => linkTouchesMain l n.id (currentMainIdsOf candidates)))

/-- `finalLinks` (App.tsx lines 306–316): links between surviving nodes
with at least one Main endpoint, endpoint groups looked up in the
candidate node map. -/
def finalLinksOf (prev : GraphData) (candidates finalNodes : List WikiNode) :
    List WikiLink :=
  let nodeMap := buildNodeMap candidates
  let finalNodeIds := finalNodes.map (·.id)
  prev.links.filter (fun l =>
    finalNodeIds.contains l.source && finalNodeIds.contains l.target &&
    (((nodeMap.find? (fun n => n.id == l.source)).map (·.group) == some Group.main) ||
     ((nodeMap.find? (fun n => n.id == l.target)).map (·.group) == some Group.main)))

/-- `handleDeleteNode` (App.tsx lines 263–320). -/
def handleDeleteNode (nodeId : String) (prev : GraphData) : GraphData :=
  match prev.nodes.find? (fun n => n.id == nodeId) with
  | none => prev
  | some targetNode =>
    let shouldDemote := targetNode.group == Group.main && isConnectedToOtherMain prev nodeId
    let candidateNodes := candidateNodesOf prev nodeId shouldDemote
    let finalNodes := finalNodesOf prev candidateNodes
    ⟨finalNodes, finalLinksOf prev candidateNodes finalNodes⟩

/-- The Main-node ids of a graph, the target set of the reachability
invariant. -/
def mainIds (g : GraphData) : List String :=
  (g.nodes.filter (fun n => n.group == Group.main)).map (·.id)

/-- General (multi-hop, undirected) reachability of an id to some Main
id over a set of links — the predicate of the spec's reachability
invariant, evaluated over all surviving links. -/
inductive ReachesMain (links : List WikiLink) (mains : List String) : String → Prop where
  | base (x : String) : x ∈ mains → ReachesMain links mains x
  | step (x y : String) (l : WikiLink) : l ∈ links →
      ((l.source = x ∧ l.target = y) ∨ (l.source = y ∧ l.target = x)) →
      ReachesMain links mains y → ReachesMain links mains x

/-! ### Character-list implementations of the JS string methods

`String.trim`, `String.toLower` … in Lean are byte-position loops that
the kernel cannot reduce; the JS methods the source uses are modelled
directly over the character list instead. -/

/-- JS `String.prototype.trim`. -/
def jsTrim (s : String) : String :=
  ⟨((s.data.dropWhile Char.isWhitespace).reverse.dropWhile Char.isWhitespace).reverse⟩

/-- JS `String.prototype.toLowerCase` (ASCII, as the titles use). -/
def jsToLower (s : String) : String := ⟨s.data.map Char.toLower⟩

/-- JS `String.prototype.replace` with a single-character global
pattern, e.g. `replace(/_/g, ' ')`. -/
def replaceChar (a b : Char) (s : String) : String :=
  ⟨s.data.map (fun c => if c = a then b else c)⟩

/-- JS `String.prototype.split` on a single-character separator. -/
def splitChar (c : Char) (s : String) : List String :=
  (s.data.splitOn c).map (fun l => ⟨l⟩)

/-! ### Search dispatch (`handleSearchSubmit`, App.tsx lines 146–161) -/

/-- `input.trim().replace(/\s+/g, '_')`: each maximal whitespace run
becomes a single underscore. -/
def wsToUnderscoreAux : List Char → Bool → List Char
  | [], _ => []
  | c :: rest, inWs =>
    if c.isWhitespace then
      if inWs then wsToUnderscoreAux rest true
      else '_' :: wsToUnderscoreAux rest true
    else c :: wsToUnderscoreAux rest false

def toRawInput (input : String) : String := ⟨wsToUnderscoreAux (jsTrim input).data false⟩

/-- `rawInput.toLowerCase().replace(/_/g, ' ')` (App.tsx line 151). -/
def searchKey (input : String) : String :=
  replaceChar '_' ' ' (jsToLower (toRawInput input))

inductive SearchAction where
  | noop
  | expandExisting (n : WikiNode)
  | focusExisting (id : String)
  | freshSearch (title : String)
deriving DecidableEq, Repr

/-- The pre-fetch dispatch of `handleSearchSubmit` (App.tsx lines
146–157): empty input is ignored; an input matching an existing node
case-insensitively (underscores read as spaces) is expanded when Sub and
focused when Main; otherwise a fresh fetch is issued for the raw input. -/
def searchDispatch (input : String) (nodes : List WikiNode) : SearchAction :=
  let rawInput := toRawInput input
  if rawInput == "" then SearchAction.noop
  else
    match nodes.find? (fun n => jsToLower n.id == searchKey input) with
    | some existingNode =>
        if existingNode.group == Group.sub then SearchAction.expandExisting existingNode
        else SearchAction.focusExisting existingNode.id
    | none => SearchAction.freshSearch rawInput

/-- End-to-end graph effect of one `handleSearchSubmit` call.
`fetched = none` models a fetch that threw. -/
def searchSubmitStep (input : String) (fetched : Option GraphData) (cjit : ℚ × ℚ)
    (jitS jitE : String → ℚ × ℚ) (g : GraphData) : GraphData :=
  match searchDispatch input g.nodes with
  | SearchAction.noop => g
  | SearchAction.focusExisting _ => g
  | SearchAction.expandExisting n =>
      match fetched with
      | some d => expandUpdate n.id d jitE g
      | none => g
  | SearchAction.freshSearch _ =>
      match fetched with
      | some d => handleSearchApply d cjit jitS g
      | none => g

/-! ### Fetch adapter (`fetchWikiLinks`, src/types.ts bundle lines 132–210)

The network round-trip, redirect resolution and JSON unpacking are not
modelled: `canonicalTitle`, `description` and `content` are the fields
of the resolved page, and `maxLinks = none` models `Infinity`.
`encodeURIComponent` in the child URLs is not modelled (no claim touches
URLs). -/

def isLinkTextChar (c : Char) : Bool := !(c == '|' || c == ']' || c == '#' || c == '\n')

/-- One attempt of the regex `\[\[([^|\]#\n]+)(?:#[^|\]]*)?(?:\|[^\]]*)?\]\]`
at the head of the character list; returns the captured group and the
rest of the input after the match.  The pattern is deterministic: each
greedy piece ends at a character no shorter alternative could absorb. -/
def tryMatchWikiLink : List Char → Option (String × List Char)
  | '[' :: '[' :: rest =>
    let g1 := rest.takeWhile isLinkTextChar
    if g1.isEmpty then none
    else
      let rest1 := rest.drop g1.length
      let rest2 := match rest1 with
        | '#' :: r => r.dropWhile (fun c => !(c == '|' || c == ']'))
        | _ => rest1
      let rest3 := match rest2 with
        | '|' :: r => r.dropWhile (fun c => !(c == ']'))
        | _ => rest2
      match rest3 with
      | ']' :: ']' :: rest4 => some (⟨g1⟩, rest4)
      | _ => none
  | _ => none

/-- The `while ((match = linkRegex.exec(content)) !== null)` scan: find
successive non-overlapping leftmost matches.  Each loop step consumes at
least one character, so `content.length` fuel always suffices. -/
def scanWikiLinksAux : Nat → List Char → List String
  | 0, _ => []
  | _, [] => []
  | fuel + 1, c :: rest =>
    match tryMatchWikiLink (c :: rest) with
    | some (t, rest') => t :: scanWikiLinksAux fuel rest'
    | none => scanWikiLinksAux fuel rest

def extractWikiLinkTargets (content : String) : List String :=
  scanWikiLinksAux content.data.length content.data

/-- `normalizeTitle` (types.ts bundle lines 105–111): trim, underscores
to spaces, first character upper-cased. -/
def normalizeTitle (title : String) : String :=
  let t := replaceChar '_' ' ' (jsTrim title)
  match t.data with
  | [] => t
  | c :: rest => ⟨c.toUpper :: rest⟩

def excludedNamespaces : List String :=
  ["User", "Talk", "Template", "Wikipedia", "File", "Image",
   "MediaWiki", "Help", "Category", "Portal", "Book", "Draft",
   "TimedText", "Module", "Special", "Media"]

/-- `isExcludedNamespace` (types.ts bundle lines 116–127). -/
def isExcludedNamespace (title : String) : Bool :=
  match splitChar ':' title with
  | p :: _ :: _ =>
      let pre := jsTrim p
      excludedNamespaces.contains pre ||
        excludedNamespaces.any (fun ns => jsToLower ns == jsToLower pre)
  | _ => false

/-- The `uniqueLinks` set of `fetchWikiLinks` in `Array.from` order:
normalised link targets, self and excluded namespaces dropped,
deduplicated keeping the first occurrence. -/
def uniqueWikiLinks (canonicalTitle : String) (content : String) : List String :=
  (extractWikiLinkTargets content).foldl (fun acc m =>
    let nt := normalizeTitle m
    if nt != canonicalTitle && !(isExcludedNamespace nt) && !(acc.contains nt) then acc ++ [nt]
    else acc) []

/-- The pure tail of `fetchWikiLinks` (types.ts bundle lines 164–209):
empty page content returns an empty batch; otherwise the batch is the
Main center node followed by the capped unique link targets as Sub
children, with one link from the center to each child. -/
def fetchWikiLinks (canonicalTitle : String) (description : Option String)
    (content : String) (maxLinks : Option Nat) : GraphData :=
  if content == "" then ⟨[], []⟩
  else
    let finalLinkList := match maxLinks with
      | some k => (uniqueWikiLinks canonicalTitle content).take k
      | none => uniqueWikiLinks canonicalTitle content
    let centerNode : WikiNode :=
      ⟨canonicalTitle, Group.main, "https://en.wikipedia.org/wiki/" ++ canonicalTitle,
       none, description, none, none⟩
    let childNodes : List WikiNode := finalLinkList.map (fun t =>
      ⟨t, Group.sub, "https://en.wikipedia.org/wiki/" ++ t, none, none, none, none⟩)
    ⟨centerNode :: childNodes, childNodes.map (fun c => ⟨centerNode.id, c.id, 1⟩)⟩

/-! ### NetworkGraph label and highlight callbacks (src/unnamed/part_000) -/

/-- Label opacity at zoom scale `k` (part_000 lines 346–350): Main
labels always visible, Sub labels only when `k > 1.2`. -/
def labelOpacity (g : Group) (k : ℚ) : ℚ :=
  match g with
  | Group.main => 1
  | Group.sub => if 12/10 < k then 1 else 0

/-- Label font size at zoom scale `k` (part_000 lines 351–354):
the group's base size divided by `k`. -/
def labelFontSize (g : Group) (k : ℚ) : ℚ :=
  (match g with
   | Group.main => (12 : ℚ)
   | Group.sub => 10) / k

/-- `isNodeHighlighted` (part_000 lines 577–581). -/
def isNodeHighlighted (hoveredNodeId : Option String) (searchTerm : String)
    (nodeId : String) : Bool :=
  if some nodeId == hoveredNodeId then true
  else if searchTerm != "" && decide ((jsToLower searchTerm).data <:+: (jsToLower nodeId).data) then true
  else false

/-- Link stroke opacity under hover (part_000 lines 592–598); `s`, `t`
are the resolved endpoint nodes.  The search term is not an input: the
source's link callbacks close only over `hoveredNodeId`. -/
def linkStrokeOpacity (hoveredNodeId : Option String) (s t : WikiNode) : ℚ :=
  if some s.id == hoveredNodeId || some t.id == hoveredNodeId then 1
  else if s.group == Group.main && t.group == Group.main then 6/10 else 1/10

/-- Link stroke width under hover (part_000 lines 599–604). -/
def linkStrokeWidth (hoveredNodeId : Option String) (s t : WikiNode) : ℚ :=
  if some s.id == hoveredNodeId || some t.id == hoveredNodeId then 3
  else if s.group == Group.main && t.group == Group.main then 2 else 1/2

/-! ### Auxiliary definitions for the statements -/

/-- Boolean string-prefix test, used to state the link-key aliasing
side condition of the merge cross-link property. -/
def strPrefixB (p s : String) : Bool := decide (p.data <+: s.data)

/-- Zero jitter, used for concrete witness evaluations. -/
def jitter0 : String → ℚ × ℚ := fun _ => (0, 0)

def cjitter0 : ℚ × ℚ := (0, 0)

/-- Witness graph for the delete claims: Main nodes `A`, `B` linked to
each other, Sub node `C` hanging off `A`. -/
def gDel : GraphData :=
  ⟨[⟨"A", Group.main, "", none, none, none, none⟩,
    ⟨"B", Group.main, "", none, some "b", some 1, some 2⟩,
    ⟨"C", Group.sub, "", none, none, none, none⟩],
   [⟨"A", "B", 1⟩, ⟨"A", "C", 1⟩]⟩

/-- A graph holding a single unreachable Sub node. -/
def gLoneSub : GraphData := ⟨[⟨"B", Group.sub, "", none, none, none, none⟩], []⟩

/-- Counterexample input for the empty-batch claim: a lone Sub node that
gets clicked. -/
def gEmpty : GraphData := ⟨[⟨"A", Group.sub, "", none, none, none, none⟩], []⟩

/-- Counterexample inputs for the merge frame claim: the clicked node
`A` also appears among the batch children. -/
def gOverlap : GraphData := ⟨[⟨"A", Group.sub, "", none, some "old", none, none⟩], []⟩

def dOverlap : GraphData :=
  ⟨[⟨"B", Group.main, "", none, some "new", none, none⟩,
    ⟨"A", Group.sub, "", none, none, none, none⟩], []⟩

/-- Counterexample inputs for the merge cross-link claim: ids containing
the `"->"` separator make the link-map key of the preserved link
`a → b->c` collide with the key of the required pair `(a->b, c)`. -/
def gColl : GraphData :=
  ⟨[⟨"a->b", Group.sub, "", none, none, none, none⟩,
    ⟨"c", Group.main, "", none, none, none, none⟩,
    ⟨"a", Group.main, "", none, none, none, none⟩,
    ⟨"b->c", Group.sub, "", none, none, none, none⟩],
   [⟨"a", "b->c", 1⟩]⟩

def dColl : GraphData :=
  ⟨[⟨"a->b", Group.main, "", none, none, none, none⟩,
    ⟨"c", Group.sub, "", none, none, none, none⟩], []⟩

/-- Witness graph for the search-dispatch claim. -/
def gSearch : GraphData := ⟨[⟨"Cat Food", Group.sub, "", none, none, none, none⟩], []⟩

/-! ## Helper lemmas -/

theorem eq_of_mem_nodup_id {l : List WikiNode} {a b : WikiNode}
    (hnd : (l.map (·.id)).Nodup) (ha : a ∈ l) (hb : b ∈ l) (hid : a.id = b.id) : a = b :=
  List.inj_on_of_nodup_map hnd ha hb hid

theorem find?_id_eq {l : List WikiNode} {n : WikiNode} {k : String}
    (hnd : (l.map (·.id)).Nodup) (hn : n ∈ l) (hk : n.id = k) :
    l.find? (fun p => p.id == k) = some n := by
  induction l with
  | nil => cases hn
  | cons h t ih =>
      simp only [List.map_cons, List.nodup_cons] at hnd
      rcases List.mem_cons.mp hn with rfl | hnt
      · simp [List.find?, hk]
      · have hne : h.id ≠ k := by
          intro hcontra
          have : n.id ∈ t.map (·.id) := List.mem_map_of_mem (·.id) hnt
          rw [hk, ← hcontra] at this
          exact hnd.1 this
        simp only [List.find?, beq_eq_false_iff_ne.mpr hne]
        exact ih hnd.2 hnt

/-! ## C9: deletion only touches the target and Sub nodes -/

/-- C9.  `handleDeleteNode` removes or demotes only the target node and
garbage-collects only Sub nodes: every Main node other than the target
survives the call entirely unchanged (id, group, description, position),
because the cleanup filter keeps every Main node unconditionally. -/
theorem deleteNode_preserves_mains (g : GraphData) (delId : String) (n : WikiNode)
    (hn : n ∈ g.nodes) (hmain : n.group = Group.main) (hne : n.id ≠ delId) :
    n ∈ (handleDeleteNode delId g).nodes := by
  unfold handleDeleteNode
  split
  · exact hn
  · refine List.mem_filter.mpr ⟨?_, ?_⟩
    · refine List.mem_filterMap.mpr ⟨n, hn, ?_⟩
      simp [beq_eq_false_iff_ne.mpr hne]
    · simp [hmain]

theorem candidate_ids_sublist (prev : GraphData) (nodeId : String) (sd : Bool) :
    ((candidateNodesOf prev nodeId sd).map (·.id)).Sublist (prev.nodes.map (·.id)) := by
  unfold candidateNodesOf
  induction prev.nodes with
  | nil => simp
  | cons h t ih =>
      simp only [List.filterMap_cons]
      by_cases hh : h.id == nodeId
      · rw [if_pos hh]
        cases sd with
        | false => simpa using ih.cons h.id
        | true =>
            simp only [if_true, List.map_cons]
            have : ({ h with group := Group.sub } : WikiNode).id = h.id := rfl
            rw [this]
            exact ih.cons₂ h.id
      · rw [if_neg hh]
        simpa using ih.cons₂ h.id

theorem candidate_mem_of_ne {prev : GraphData} {nodeId : String} {sd : Bool}
    {n : WikiNode} (hn : n ∈ prev.nodes) (hne : n.id ≠ nodeId) :
    n ∈ candidateNodesOf prev nodeId sd := by
  refine List.mem_filterMap.mpr ⟨n, hn, ?_⟩
  simp [beq_eq_false_iff_ne.mpr hne]

theorem candidate_mem_elim {prev : GraphData} {nodeId : String} {sd : Bool}
    {n : WikiNode} (hn : n ∈ candidateNodesOf prev nodeId sd) :
    (∃ a ∈ prev.nodes, a.id ≠ nodeId ∧ n = a) ∨
    (sd = true ∧ ∃ a ∈ prev.nodes, a.id = nodeId ∧ n = { a with group := Group.sub }) := by
  rcases List.mem_filterMap.mp hn with ⟨a, ha, hfa⟩
  by_cases hid : a.id == nodeId
  · rw [if_pos hid] at hfa
    cases sd with
    | false => simp at hfa
    | true =>
        refine Or.inr ⟨rfl, a, ha, beq_iff_eq.mp hid, ?_⟩
        simp only [if_true] at hfa
        exact (Option.some_inj.mp hfa).symm
  · rw [if_neg hid] at hfa
    exact Or.inl ⟨a, ha, beq_eq_false_iff_ne.mp (by simpa using hid), (Option.some_inj.mp hfa).symm⟩

theorem mains_contains_mono {l : WikiLink} {nid : String} {m1 m2 : List String}
    (hsub : ∀ x ∈ m1, x ∈ m2) (h : linkTouchesMain l nid m1 = true) :
    linkTouchesMain l nid m2 = true := by
  unfold linkTouchesMain at h ⊢
  by_cases h1 : l.source == nid
  · rw [if_pos h1] at h ⊢
    exact List.elem_eq_true_of_mem (hsub _ (List.mem_of_elem_eq_true h))
  · rw [if_neg h1] at h ⊢
    by_cases h2 : l.target == nid
    · rw [if_pos h2] at h ⊢
      exact List.elem_eq_true_of_mem (hsub _ (List.mem_of_elem_eq_true h))
    · rw [if_neg h2] at h
      cases h

/-- Witness for C9 at a concrete graph: deleting `B` from `gDel` keeps
the Main node `A` unchanged. -/
theorem deleteNode_preserves_mains_witness :
    (⟨"A", Group.main, "", none, none, none, none⟩ : WikiNode) ∈
      (handleDeleteNode "B" gDel).nodes :=
  deleteNode_preserves_mains gDel "B" _ (by decide) (by decide) (by decide)

theorem buildNodeMap_aux (nodes : List WikiNode) : ∀ acc : List WikiNode,
    ((acc ++ nodes).map (·.id)).Nodup → nodes.foldl nodeMapSet acc = acc ++ nodes := by
  induction nodes with
  | nil => intro acc _; simp
  | cons n t ih =>
      intro acc h
      have hdisj : ∀ p ∈ acc, p.id ≠ n.id := by
        intro p hp hpc
        rw [List.map_append, List.nodup_append] at h
        exact h.2.2 (List.mem_map_of_mem (·.id) hp)
          (by simp only [List.map_cons, List.mem_cons]; exact Or.inl hpc)
      have hfresh : acc.any (fun p => p.id == n.id) = false := by
        rw [List.any_eq_false]
        intro p hp
        simpa using hdisj p hp
      rw [List.foldl_cons]
      have hstep : nodeMapSet acc n = acc ++ [n] := by
        unfold nodeMapSet
        rw [hfresh]
        simp
      rw [hstep]
      have h' : (((acc ++ [n]) ++ t).map (·.id)).Nodup := by
        simpa [List.append_assoc] using h
      have := ih (acc ++ [n]) h'
      simpa [List.append_assoc] using this

theorem buildNodeMap_eq_self {nodes : List WikiNode}
    (hnd : (nodes.map (·.id)).Nodup) : buildNodeMap nodes = nodes := by
  unfold buildNodeMap
  simpa using buildNodeMap_aux nodes [] (by simpa using hnd)

/-- Core of the delete reachability invariant: every Sub node the
cleanup keeps has a surviving one-hop link to a surviving Main node. -/
theorem delete_core (prev : GraphData) (delId : String) (sd : Bool)
    (hnd : (prev.nodes.map (·.id)).Nodup) :
    ∀ n ∈ finalNodesOf prev (candidateNodesOf prev delId sd), n.group = Group.sub →
      ∃ l ∈ finalLinksOf prev (candidateNodesOf prev delId sd)
              (finalNodesOf prev (candidateNodesOf prev delId sd)),
        ∃ mId, ((l.source = n.id ∧ l.target = mId) ∨ (l.source = mId ∧ l.target = n.id)) ∧
          ∃ c ∈ finalNodesOf prev (candidateNodesOf prev delId sd),
            c.group = Group.main ∧ c.id = mId := by
  intro n hn hsub
  have hndC : ((candidateNodesOf prev delId sd).map (·.id)).Nodup :=
    (candidate_ids_sublist prev delId sd).nodup hnd
  rcases List.mem_filter.mp hn with ⟨hnC, hcond⟩
  have hnotmain : (n.group == Group.main) = false := by simp [hsub]
  simp only [hnotmain, Bool.false_or] at hcond
  rcases List.any_eq_true.mp hcond with ⟨l, hl, htouch⟩
  unfold linkTouchesMain at htouch
  by_cases h1 : (l.source == n.id) = true
  · rw [if_pos h1] at htouch
    rcases List.mem_map.mp (List.mem_of_elem_eq_true htouch) with ⟨c, hcf, hcid⟩
    rcases List.mem_filter.mp hcf with ⟨hcC, hcmainb⟩
    have hcmain : c.group = Group.main := beq_iff_eq.mp hcmainb
    have hcF : c ∈ finalNodesOf prev (candidateNodesOf prev delId sd) :=
      List.mem_filter.mpr ⟨hcC, by simp [hcmain]⟩
    have hlL : l ∈ finalLinksOf prev (candidateNodesOf prev delId sd)
        (finalNodesOf prev (candidateNodesOf prev delId sd)) := by
      refine List.mem_filter.mpr ⟨hl, ?_⟩
      have hsrc : ((finalNodesOf prev (candidateNodesOf prev delId sd)).map
          (·.id)).contains l.source = true := by
        rw [beq_iff_eq.mp h1]
        exact List.elem_eq_true_of_mem (List.mem_map_of_mem (·.id) hn)
      have htgt : ((finalNodesOf prev (candidateNodesOf prev delId sd)).map
          (·.id)).contains l.target = true := by
        rw [← hcid]
        exact List.elem_eq_true_of_mem (List.mem_map_of_mem (·.id) hcF)
      have hgrp : (buildNodeMap (candidateNodesOf prev delId sd)).find?
          (fun p => p.id == l.target) = some c := by
        rw [buildNodeMap_eq_self hndC]
        exact find?_id_eq hndC hcC hcid
      simp [hsrc, htgt, hgrp, hcmain]
      exact ⟨⟨n, hn, (beq_iff_eq.mp h1).symm⟩, ⟨c, hcF, hcid⟩⟩
    exact ⟨l, hlL, l.target, Or.inl ⟨beq_iff_eq.mp h1, rfl⟩, c, hcF, hcmain, hcid⟩
  · rw [if_neg h1] at htouch
    by_cases h2 : (l.target == n.id) = true
    · rw [if_pos h2] at htouch
      rcases List.mem_map.mp (List.mem_of_elem_eq_true htouch) with ⟨c, hcf, hcid⟩
      rcases List.mem_filter.mp hcf with ⟨hcC, hcmainb⟩
      have hcmain : c.group = Group.main := beq_iff_eq.mp hcmainb
      have hcF : c ∈ finalNodesOf prev (candidateNodesOf prev delId sd) :=
        List.mem_filter.mpr ⟨hcC, by simp [hcmain]⟩
      have hlL : l ∈ finalLinksOf prev (candidateNodesOf prev delId sd)
          (finalNodesOf prev (candidateNodesOf prev delId sd)) := by
        refine List.mem_filter.mpr ⟨hl, ?_⟩
        have htgt : ((finalNodesOf prev (candidateNodesOf prev delId sd)).map
            (·.id)).contains l.target = true := by
          rw [beq_iff_eq.mp h2]
          exact List.elem_eq_true_of_mem (List.mem_map_of_mem (·.id) hn)
        have hsrc : ((finalNodesOf prev (candidateNodesOf prev delId sd)).map
            (·.id)).contains l.source = true := by
          rw [← hcid]
          exact List.elem_eq_true_of_mem (List.mem_map_of_mem (·.id) hcF)
        have hgrp : (buildNodeMap (candidateNodesOf prev delId sd)).find?
            (fun p => p.id == l.source) = some c := by
          rw [buildNodeMap_eq_self hndC]
          exact find?_id_eq hndC hcC hcid
        simp [hsrc, htgt, hgrp, hcmain]
        exact ⟨⟨c, hcF, hcid⟩, ⟨n, hn, (beq_iff_eq.mp h2).symm⟩⟩
      exact ⟨l, hlL, l.source, Or.inr ⟨rfl, beq_iff_eq.mp h2⟩, c, hcF, hcmain, hcid⟩
    · rw [if_neg h2] at htouch
      cases htouch

/-! ## C1: reachability invariant after delete -/

/-- C1.  After every `handleDeleteNode` call on a present id, every Sub
node remaining in the store reaches some Main node through surviving
links, with reachability evaluated generally (`ReachesMain` admits
chains); equivalently, every Sub node with no such path was removed by
the garbage collection. -/
theorem deleteNode_reachability (g : GraphData) (delId : String)
    (hnd : (g.nodes.map (·.id)).Nodup)
    (hmem : g.nodes.any (fun n => n.id == delId) = true) :
    ∀ n ∈ (handleDeleteNode delId g).nodes, n.group = Group.sub →
      ReachesMain (handleDeleteNode delId g).links (mainIds (handleDeleteNode delId g))
        n.id := by
  have hfind : ∃ tgt, g.nodes.find? (fun n => n.id == delId) = some tgt := by
    rw [← Option.isSome_iff_exists, List.find?_isSome]
    exact List.any_eq_true.mp hmem
  rcases hfind with ⟨tgt, hfind⟩
  have hres : handleDeleteNode delId g =
      ⟨finalNodesOf g (candidateNodesOf g delId
          (tgt.group == Group.main && isConnectedToOtherMain g delId)),
       finalLinksOf g (candidateNodesOf g delId
          (tgt.group == Group.main && isConnectedToOtherMain g delId))
         (finalNodesOf g (candidateNodesOf g delId
          (tgt.group == Group.main && isConnectedToOtherMain g delId)))⟩ := by
    unfold handleDeleteNode
    rw [hfind]
  rw [hres]
  intro n hn hsub
  rcases delete_core g delId (tgt.group == Group.main && isConnectedToOtherMain g delId)
      hnd n hn hsub with ⟨l, hlL, mId, hor, c, hcF, hcmain, hcid⟩
  refine ReachesMain.step n.id mId l hlL hor (ReachesMain.base mId ?_)
  exact List.mem_map.mpr ⟨c, List.mem_filter.mpr ⟨hcF, by simp [hcmain]⟩, hcid⟩

/-- Witness for C1: after deleting the Main node `B` of `gDel` (demoted,
since it is linked to Main `A`), the surviving Sub node `C` reaches a
Main node. -/
theorem deleteNode_reachability_witness :
    ReachesMain (handleDeleteNode "B" gDel).links (mainIds (handleDeleteNode "B" gDel))
      "C" :=
  deleteNode_reachability gDel "B" (by decide) (by decide)
    ⟨"C", Group.sub, "", none, none, none, none⟩ (by decide) rfl

/-! ## C2: demotion of an anchored Main node, and removal of a Sub target -/

/-- C2.  Deleting a Main node that has a retained link to another Main
node demotes it in place: the result holds a node with the same id,
group Sub, position and description kept, and every link between it and
another Main node survives.  Deleting a node whose stored group is Sub
(as the demoted node is, assuming by the claim that it is unreachable
from every Main node) removes it entirely. -/
theorem deleteNode_demotion (g : GraphData) (t : WikiNode)
    (hnd : (g.nodes.map (·.id)).Nodup)
    (ht : t ∈ g.nodes)
    (hmain : t.group = Group.main)
    (hanch : isConnectedToOtherMain g t.id = true) :
    (∃ n' ∈ (handleDeleteNode t.id g).nodes,
        n'.id = t.id ∧ n'.group = Group.sub ∧ n'.x = t.x ∧ n'.y = t.y ∧
        n'.description = t.description) ∧
    (∀ l ∈ g.links, ∀ m ∈ g.nodes, m.group = Group.main → m.id ≠ t.id →
        ((l.source = t.id ∧ l.target = m.id) ∨ (l.source = m.id ∧ l.target = t.id)) →
        l ∈ (handleDeleteNode t.id g).links) ∧
    (∀ (g₂ : GraphData) (t₂ : WikiNode),
        g₂.nodes.find? (fun n => n.id == t.id) = some t₂ → t₂.group = Group.sub →
        ¬ ReachesMain g₂.links (mainIds g₂) t.id →
        ∀ n ∈ (handleDeleteNode t.id g₂).nodes, n.id ≠ t.id) := by
  have hfind : g.nodes.find? (fun n => n.id == t.id) = some t := find?_id_eq hnd ht rfl
  have hres : handleDeleteNode t.id g =
      ⟨finalNodesOf g (candidateNodesOf g t.id true),
       finalLinksOf g (candidateNodesOf g t.id true)
         (finalNodesOf g (candidateNodesOf g t.id true))⟩ := by
    unfold handleDeleteNode
    rw [hfind]
    simp [hmain, hanch]
  have hndC : ((candidateNodesOf g t.id true).map (·.id)).Nodup :=
    (candidate_ids_sublist g t.id true).nodup hnd
  have htdC : ({ t with group := Group.sub } : WikiNode) ∈ candidateNodesOf g t.id true :=
    List.mem_filterMap.mpr ⟨t, ht, by simp⟩
  have hmainsub : ∀ x ∈ otherMainIds g t.id,
      x ∈ currentMainIdsOf (candidateNodesOf g t.id true) := by
    intro x hx
    rcases List.mem_map.mp hx with ⟨m, hmf, hmid⟩
    rcases List.mem_filter.mp hmf with ⟨hmg, hmb⟩
    rw [Bool.and_eq_true] at hmb
    have hmmain : m.group = Group.main := beq_iff_eq.mp hmb.1
    have hmne : m.id ≠ t.id := by simpa using hmb.2
    exact List.mem_map.mpr
      ⟨m, List.mem_filter.mpr ⟨candidate_mem_of_ne hmg hmne, by simp [hmmain]⟩, hmid⟩
  have htdF : ({ t with group := Group.sub } : WikiNode) ∈
      finalNodesOf g (candidateNodesOf g t.id true) := by
    refine List.mem_filter.mpr ⟨htdC, ?_⟩
    rcases List.any_eq_true.mp hanch with ⟨l, hl, htouch⟩
    have htouch' := mains_contains_mono hmainsub htouch
    simp only [Bool.or_eq_true, List.any_eq_true]
    exact Or.inr ⟨l, hl, htouch'⟩
  refine ⟨⟨{ t with group := Group.sub }, by rw [hres]; exact htdF,
      rfl, rfl, rfl, rfl, rfl⟩, ?_, ?_⟩
  · intro l hl m hm hmmain hmne hends
    have hmC : m ∈ candidateNodesOf g t.id true := candidate_mem_of_ne hm hmne
    have hmF : m ∈ finalNodesOf g (candidateNodesOf g t.id true) :=
      List.mem_filter.mpr ⟨hmC, by simp [hmmain]⟩
    rw [hres]
    refine List.mem_filter.mpr ⟨hl, ?_⟩
    rcases hends with ⟨hsrc, htgt⟩ | ⟨hsrc, htgt⟩
    · have hgrp : (buildNodeMap (candidateNodesOf g t.id true)).find?
          (fun p => p.id == l.target) = some m := by
        rw [buildNodeMap_eq_self hndC]
        exact find?_id_eq hndC hmC htgt.symm
      simp [hgrp, hmmain]
      exact ⟨⟨{ t with group := Group.sub }, htdF, hsrc.symm⟩, ⟨m, hmF, htgt.symm⟩⟩
    · have hgrp : (buildNodeMap (candidateNodesOf g t.id true)).find?
          (fun p => p.id == l.source) = some m := by
        rw [buildNodeMap_eq_self hndC]
        exact find?_id_eq hndC hmC hsrc.symm
      simp [hgrp, hmmain]
      exact ⟨⟨m, hmF, hsrc.symm⟩, ⟨{ t with group := Group.sub }, htdF, htgt.symm⟩⟩
  · intro g₂ t₂ hfind₂ hsub₂ _hunreach n hn
    have hres₂ : handleDeleteNode t.id g₂ =
        ⟨finalNodesOf g₂ (candidateNodesOf g₂ t.id false),
         finalLinksOf g₂ (candidateNodesOf g₂ t.id false)
           (finalNodesOf g₂ (candidateNodesOf g₂ t.id false))⟩ := by
      unfold handleDeleteNode
      rw [hfind₂]
      have hgb : (Group.sub == Group.main) = false := by decide
      simp [hsub₂, hgb]
    rw [hres₂] at hn
    have hnC : n ∈ candidateNodesOf g₂ t.id false := (List.mem_filter.mp hn).1
    rcases candidate_mem_elim hnC with ⟨a, _, hane, rfl⟩ | ⟨hcontra, _⟩
    · exact hane
    · cases hcontra

/-- Witness for C2 at concrete graphs: deleting the anchored Main `B`
of `gDel` demotes it in place with its link to `A` kept; deleting the
unreachable Sub node `B` of `gLoneSub` removes it. -/
theorem deleteNode_demotion_witness :
    (∃ n' ∈ (handleDeleteNode "B" gDel).nodes,
        n'.id = "B" ∧ n'.group = Group.sub ∧ n'.x = some 1 ∧ n'.y = some 2 ∧
        n'.description = some "b") ∧
    (∀ n ∈ (handleDeleteNode "B" gLoneSub).nodes, n.id ≠ "B") := by
  have h := deleteNode_demotion gDel ⟨"B", Group.main, "", none, some "b", some 1, some 2⟩
    (by decide) (by decide) (by decide) (by decide)
  refine ⟨h.1, ?_⟩
  refine h.2.2 gLoneSub ⟨"B", Group.sub, "", none, none, none, none⟩ (by decide) rfl ?_
  intro hreach
  cases hreach with
  | base _ hmem => simp [gLoneSub, mainIds] at hmem
  | step _ y l hl _ _ => simp [gLoneSub] at hl

/-! ## C7: semantic zoom -/

/-- C7.  At every zoom scale `k`, a Main-node label has opacity 1, a
Sub-node label has opacity 1 exactly when `k > 1.2` and 0 otherwise, and
each label's font size is its group's base size divided by `k`, so
rendered size times `k` is the constant 12 (Main) or 10 (Sub). -/
theorem semantic_zoom_labels (k : ℚ) (hk : 0 < k) :
    labelOpacity Group.main k = 1 ∧
    (labelOpacity Group.sub k = 1 ↔ 12/10 < k) ∧
    (labelOpacity Group.sub k = 0 ↔ ¬ 12/10 < k) ∧
    labelFontSize Group.main k * k = 12 ∧
    labelFontSize Group.sub k * k = 10 := by
  have hk0 : k ≠ 0 := ne_of_gt hk
  refine ⟨rfl, ?_, ?_, ?_, ?_⟩
  · by_cases h : (12/10 : ℚ) < k <;> simp [labelOpacity, h]
  · by_cases h : (12/10 : ℚ) < k <;> simp [labelOpacity, h]
  · exact div_mul_cancel₀ 12 hk0
  · exact div_mul_cancel₀ 10 hk0

/-- Witness for C7 at the concrete scale `k = 2`. -/
theorem semantic_zoom_labels_witness :
    labelOpacity Group.main 2 = 1 ∧
    (labelOpacity Group.sub 2 = 1 ↔ (12/10 : ℚ) < 2) ∧
    (labelOpacity Group.sub 2 = 0 ↔ ¬ (12/10 : ℚ) < 2) ∧
    labelFontSize Group.main 2 * 2 = 12 ∧
    labelFontSize Group.sub 2 * 2 = 10 :=
  semantic_zoom_labels 2 (by norm_num)

/-! ## C8: highlight predicate -/

/-- C8.  The highlight predicate is the pure function of
`(hoveredNodeId, searchTerm, node)` given by: a node is highlighted iff
its id equals the hovered id or the search term is non-empty and is a
case-insensitive substring of the node's id; a link is emphasized
(stroke width 3 / opacity 1) iff one of its endpoints is the hovered
node.  The link callbacks take no search term at all, so search matches
cannot change link emphasis. -/
theorem highlight_predicate (hovered : Option String) (searchTerm : String)
    (nodeId : String) (s t : WikiNode) :
    (isNodeHighlighted hovered searchTerm nodeId = true ↔
      (hovered = some nodeId ∨
        (searchTerm ≠ "" ∧ (jsToLower searchTerm).data <:+: (jsToLower nodeId).data))) ∧
    (linkStrokeWidth hovered s t = 3 ↔ (hovered = some s.id ∨ hovered = some t.id)) ∧
    (linkStrokeOpacity hovered s t = 1 ↔ (hovered = some s.id ∨ hovered = some t.id)) := by
  refine ⟨?_, ?_, ?_⟩
  · unfold isNodeHighlighted
    by_cases h1 : hovered = some nodeId
    · simp [h1]
    · have hb : (some nodeId == hovered) = false := by
        rw [beq_eq_false_iff_ne]
        exact fun hc => h1 hc.symm
      simp [hb, h1, bne_iff_ne, decide_eq_true_iff]
  · unfold linkStrokeWidth
    by_cases h1 : hovered = some s.id
    · simp [h1]
    · by_cases h2 : hovered = some t.id
      · simp [h2]
      · have hb1 : (some s.id == hovered) = false := by
          rw [beq_eq_false_iff_ne]; exact fun hc => h1 hc.symm
        have hb2 : (some t.id == hovered) = false := by
          rw [beq_eq_false_iff_ne]; exact fun hc => h2 hc.symm
        simp only [hb1, hb2, Bool.or_self, Bool.false_eq_true, if_false]
        constructor
        · intro hcontra
          exact absurd hcontra (by split <;> norm_num)
        · rintro (hc | hc) <;> [exact absurd hc h1; exact absurd hc h2]
  · unfold linkStrokeOpacity
    by_cases h1 : hovered = some s.id
    · simp [h1]
    · by_cases h2 : hovered = some t.id
      · simp [h2]
      · have hb1 : (some s.id == hovered) = false := by
          rw [beq_eq_false_iff_ne]; exact fun hc => h1 hc.symm
        have hb2 : (some t.id == hovered) = false := by
          rw [beq_eq_false_iff_ne]; exact fun hc => h2 hc.symm
        simp only [hb1, hb2, Bool.or_self, Bool.false_eq_true, if_false]
        constructor
        · intro hcontra
          exact absurd hcontra (by split <;> norm_num)
        · rintro (hc | hc) <;> [exact absurd hc h1; exact absurd hc h2]

/-! ## C6: fetch batch shape -/

/-- C6.  Every successful `fetchWikiLinks` call on a page with non-empty
content returns the resolved center as `nodes[0]` with group Main, at
most `maxLinks` children when `maxLinks` is finite, and — when
`maxLinks = Infinity` (`none`) — exactly the unique extracted links as
children, uncapped.  (A successful fetch of a page with empty content
returns the zero-node batch that the callers treat as the `EmptyResult`
error, so it carries no center.) -/
theorem fetchWikiLinks_batch_shape (canonicalTitle : String) (description : Option String)
    (content : String) (maxLinks : Option Nat) (hc : content ≠ "") :
    (fetchWikiLinks canonicalTitle description content maxLinks).nodes.head? =
      some ⟨canonicalTitle, Group.main,
            "https://en.wikipedia.org/wiki/" ++ canonicalTitle, none, description,
            none, none⟩ ∧
    (∀ k, maxLinks = some k →
      (fetchWikiLinks canonicalTitle description content maxLinks).nodes.length ≤ k + 1) ∧
    (maxLinks = none →
      ((fetchWikiLinks canonicalTitle description content maxLinks).nodes.drop 1).map (·.id) =
        uniqueWikiLinks canonicalTitle content) := by
  have hb : (content == "") = false := beq_eq_false_iff_ne.mpr hc
  unfold fetchWikiLinks
  rw [hb]
  simp only [Bool.false_eq_true, if_false]
  refine ⟨rfl, ?_, ?_⟩
  · rintro k rfl
    simp only [List.length_cons, List.length_map, List.length_take]
    omega
  · rintro rfl
    simp only [List.drop_succ_cons, List.drop_zero, List.map_map]
    have hpt : ∀ a ∈ uniqueWikiLinks canonicalTitle content,
        ((fun x => WikiNode.id x) ∘ fun t =>
          (⟨t, Group.sub, "https://en.wikipedia.org/wiki/" ++ t, none, none, none, none⟩ :
            WikiNode)) a = id a := fun a _ => rfl
    rw [List.map_congr_left hpt, List.map_id]

/-- Witness for C6 on a concrete page body, both with a finite cap and
uncapped. -/
theorem fetchWikiLinks_batch_shape_witness :
    (fetchWikiLinks "T" (some "d") "[[A]] [[B]] [[C]]" (some 2)).nodes.head? =
      some ⟨"T", Group.main, "https://en.wikipedia.org/wiki/" ++ "T", none, some "d",
            none, none⟩ ∧
    (∀ k, (some 2 : Option Nat) = some k →
      (fetchWikiLinks "T" (some "d") "[[A]] [[B]] [[C]]" (some 2)).nodes.length ≤ k + 1) ∧
    ((some 2 : Option Nat) = none →
      ((fetchWikiLinks "T" (some "d") "[[A]] [[B]] [[C]]" (some 2)).nodes.drop 1).map (·.id) =
        uniqueWikiLinks "T" "[[A]] [[B]] [[C]]") :=
  fetchWikiLinks_batch_shape "T" (some "d") "[[A]] [[B]] [[C]]" (some 2) (by decide)

/-! ## Node-map machinery -/

theorem nodeMapSet_of_fresh {m : List WikiNode} {n : WikiNode}
    (h : m.any (fun p => p.id == n.id) = false) : nodeMapSet m n = m ++ [n] := by
  unfold nodeMapSet
  rw [h]
  simp

theorem nodeMapSet_mem_self (m : List WikiNode) (n : WikiNode) : n ∈ nodeMapSet m n := by
  unfold nodeMapSet
  by_cases h : m.any (fun p => p.id == n.id) = true
  · rw [if_pos h]
    rcases List.any_eq_true.mp h with ⟨p, hp, hpb⟩
    exact List.mem_map.mpr ⟨p, hp, by rw [if_pos hpb]⟩
  · rw [if_neg h]
    exact List.mem_append.mpr (Or.inr (List.mem_singleton.mpr rfl))

theorem nodeMapSet_mem_of_ne {m : List WikiNode} {p n : WikiNode}
    (hp : p ∈ m) (hne : p.id ≠ n.id) : p ∈ nodeMapSet m n := by
  have hb : (p.id == n.id) = false := beq_eq_false_iff_ne.mpr hne
  unfold nodeMapSet
  by_cases h : m.any (fun q => q.id == n.id) = true
  · rw [if_pos h]
    refine List.mem_map.mpr ⟨p, hp, ?_⟩
    rw [hb]
    simp
  · rw [if_neg h]
    exact List.mem_append.mpr (Or.inl hp)

theorem nodeMapSet_ids (m : List WikiNode) (n : WikiNode) :
    (nodeMapSet m n).map (·.id) =
      if m.any (fun p => p.id == n.id) then m.map (·.id)
      else m.map (·.id) ++ [n.id] := by
  unfold nodeMapSet
  by_cases h : m.any (fun p => p.id == n.id) = true
  · rw [if_pos h, if_pos h, List.map_map]
    apply List.map_congr_left
    intro p _
    by_cases hb : (p.id == n.id) = true
    · simp only [Function.comp_apply, hb, if_true]
      exact (beq_iff_eq.mp hb).symm
    · simp only [Function.comp_apply, hb]
      simp
  · rw [if_neg h, if_neg h, List.map_append]
    rfl

theorem any_id_of_mem {m : List WikiNode} {p : WikiNode} {k : String}
    (hp : p ∈ m) (hk : p.id = k) : m.any (fun q => q.id == k) = true :=
  List.any_eq_true.mpr ⟨p, hp, by simp [hk]⟩

theorem nodeMapSet_anyid_mono {m : List WikiNode} {n : WikiNode} {k : String}
    (h : m.any (fun p => p.id == k) = true) :
    (nodeMapSet m n).any (fun p => p.id == k) = true := by
  rcases List.any_eq_true.mp h with ⟨p, hp, hpk⟩
  by_cases he : p.id = n.id
  · refine List.any_eq_true.mpr ⟨n, nodeMapSet_mem_self m n, ?_⟩
    have hnk : n.id = k := by rw [← he]; exact beq_iff_eq.mp hpk
    simp [hnk]
  · exact List.any_eq_true.mpr ⟨p, nodeMapSet_mem_of_ne hp he, hpk⟩

theorem nodeMapSet_ids_nodup {m : List WikiNode} {n : WikiNode}
    (h : (m.map (·.id)).Nodup) : ((nodeMapSet m n).map (·.id)).Nodup := by
  rw [nodeMapSet_ids]
  by_cases hc : m.any (fun p => p.id == n.id) = true
  · rw [if_pos hc]; exact h
  · rw [if_neg hc]
    have hc' : m.any (fun p => p.id == n.id) = false := by
      revert hc; cases m.any (fun p => p.id == n.id) <;> simp
    rw [List.nodup_append]
    refine ⟨h, List.nodup_singleton _, ?_⟩
    intro x hx hxn
    rcases List.mem_map.mp hx with ⟨p, hp, hpid⟩
    rw [List.mem_singleton] at hxn
    rw [List.any_eq_false] at hc'
    apply hc' p hp
    simp [hpid, hxn]

theorem buildNodeMap_ids_nodup (nodes : List WikiNode) :
    ((buildNodeMap nodes).map (·.id)).Nodup := by
  unfold buildNodeMap
  have haux : ∀ (l : List WikiNode) (acc : List WikiNode), ((acc.map (·.id)).Nodup) →
      (((l.foldl nodeMapSet acc).map (·.id)).Nodup) := by
    intro l
    induction l with
    | nil => intro acc h; exact h
    | cons n t ih =>
        intro acc h
        rw [List.foldl_cons]
        exact ih _ (nodeMapSet_ids_nodup h)
  exact haux nodes [] (by simp)

theorem childFold_mem {tr : WikiNode → WikiNode} (htr : ∀ c, (tr c).id = c.id)
    (children : List WikiNode) :
    ∀ init p, p ∈ init → p ∈ childFold tr children init := by
  induction children with
  | nil => intro init p hp; exact hp
  | cons c rest ih =>
      intro init p hp
      show p ∈ childFold tr rest
        (if init.any (fun q => q.id == c.id) then init else nodeMapSet init (tr c))
      by_cases h : init.any (fun q => q.id == c.id) = true
      · rw [if_pos h]; exact ih init p hp
      · rw [if_neg h]
        refine ih _ p ?_
        have h' : init.any (fun q => q.id == (tr c).id) = false := by
          rw [htr c]
          revert h; cases init.any (fun q => q.id == c.id) <;> simp
        rw [nodeMapSet_of_fresh h']
        exact List.mem_append.mpr (Or.inl hp)

theorem childFold_anyid_mono {tr : WikiNode → WikiNode}
    (children : List WikiNode) :
    ∀ init k, init.any (fun p => p.id == k) = true →
      (childFold tr children init).any (fun p => p.id == k) = true := by
  induction children with
  | nil => intro init k h; exact h
  | cons c rest ih =>
      intro init k h
      show (childFold tr rest
        (if init.any (fun q => q.id == c.id) then init else nodeMapSet init (tr c))).any
          (fun p => p.id == k) = true
      by_cases hc : init.any (fun q => q.id == c.id) = true
      · rw [if_pos hc]; exact ih init k h
      · rw [if_neg hc]; exact ih _ k (nodeMapSet_anyid_mono h)

theorem childFold_ids_nodup {tr : WikiNode → WikiNode}
    (children : List WikiNode) :
    ∀ init, ((init.map (·.id)).Nodup) →
      (((childFold tr children init).map (·.id)).Nodup) := by
  induction children with
  | nil => intro init h; exact h
  | cons c rest ih =>
      intro init h
      show (((childFold tr rest
        (if init.any (fun q => q.id == c.id) then init else nodeMapSet init (tr c))).map
          (·.id)).Nodup)
      by_cases hc : init.any (fun q => q.id == c.id) = true
      · rw [if_pos hc]; exact ih init h
      · rw [if_neg hc]; exact ih _ (nodeMapSet_ids_nodup h)

theorem childFold_has_child {tr : WikiNode → WikiNode} (htr : ∀ c, (tr c).id = c.id)
    (children : List WikiNode) :
    ∀ init c, c ∈ children →
      (childFold tr children init).any (fun p => p.id == c.id) = true := by
  induction children with
  | nil => intro init c hc; cases hc
  | cons c0 rest ih =>
      intro init c hc
      show (childFold tr rest
        (if init.any (fun q => q.id == c0.id) then init else nodeMapSet init (tr c0))).any
          (fun p => p.id == c.id) = true
      rcases List.mem_cons.mp hc with rfl | hcr
      · by_cases h : init.any (fun q => q.id == c.id) = true
        · rw [if_pos h]
          exact childFold_anyid_mono rest init c.id h
        · rw [if_neg h]
          refine childFold_anyid_mono rest _ c.id ?_
          exact List.any_eq_true.mpr ⟨tr c, nodeMapSet_mem_self init (tr c), by simp [htr c]⟩
      · by_cases h : init.any (fun q => q.id == c0.id) = true
        · rw [if_pos h]; exact ih init c hcr
        · rw [if_neg h]; exact ih _ c hcr

theorem seedNearParent_id (p? : Option WikiNode) (srcId : String) (jit : String → ℚ × ℚ)
    (c : WikiNode) : (seedNearParent p? srcId jit c).id = c.id := by
  unfold seedNearParent
  rcases p? with _ | en
  · rfl
  · rcases hx : en.x with _ | ex <;> rcases hy : en.y with _ | ey <;>
      simp only [hx, hy]

theorem seedNearCenter_id (center : WikiNode) (jit : String → ℚ × ℚ) (c : WikiNode) :
    (seedNearCenter center jit c).id = c.id := by
  unfold seedNearCenter
  rcases hx : center.x with _ | cx <;> simp only [hx]

theorem promoteCenter_mem_of_ne {nodeId : String} {d : GraphData} {nm0 : List WikiNode}
    {p : WikiNode} (hp : p ∈ nm0) (hne : p.id ≠ nodeId) :
    p ∈ promoteCenter nodeId d nm0 := by
  unfold promoteCenter
  cases hfind : nm0.find? (fun n => n.id == nodeId) with
  | none => exact hp
  | some en =>
      have hb := List.find?_some hfind
      have henid : en.id = nodeId := by exact beq_iff_eq.mp hb
      cases hd : d.nodes with
      | nil => exact nodeMapSet_mem_of_ne hp (by simpa [henid] using hne)
      | cons n0 rest => exact nodeMapSet_mem_of_ne hp (by simpa [henid] using hne)

theorem promoteCenter_promoted {nodeId : String} {d : GraphData} {nm0 : List WikiNode}
    (hnd : (nm0.map (·.id)).Nodup) {p : WikiNode} (hp : p ∈ nm0) (hpid : p.id = nodeId) :
    ∃ n' ∈ promoteCenter nodeId d nm0, n'.id = p.id ∧ n'.group = Group.main := by
  unfold promoteCenter
  rw [find?_id_eq hnd hp hpid]
  cases hd : d.nodes with
  | nil => exact ⟨{ p with group := Group.main }, nodeMapSet_mem_self _ _, rfl, rfl⟩
  | cons n0 rest =>
      exact ⟨{ p with group := Group.main, description := n0.description },
        nodeMapSet_mem_self _ _, rfl, rfl⟩

theorem promoteCenter_anyid_mono {nodeId : String} {d : GraphData} {nm0 : List WikiNode}
    {k : String} (h : nm0.any (fun p => p.id == k) = true) :
    (promoteCenter nodeId d nm0).any (fun p => p.id == k) = true := by
  unfold promoteCenter
  cases hfind : nm0.find? (fun n => n.id == nodeId) with
  | none => exact h
  | some en =>
      cases hd : d.nodes with
      | nil => exact nodeMapSet_anyid_mono h
      | cons n0 rest => exact nodeMapSet_anyid_mono h

theorem promoteCenter_ids_nodup {nodeId : String} {d : GraphData} {nm0 : List WikiNode}
    (h : (nm0.map (·.id)).Nodup) :
    (((promoteCenter nodeId d nm0).map (·.id)).Nodup) := by
  unfold promoteCenter
  cases hfind : nm0.find? (fun n => n.id == nodeId) with
  | none => exact h
  | some en =>
      cases hd : d.nodes with
      | nil => exact nodeMapSet_ids_nodup h
      | cons n0 rest => exact nodeMapSet_ids_nodup h

theorem resolveCenter_id (n : WikiNode) (e : Bool) (cj : ℚ × ℚ) (nm0 : List WikiNode) :
    (resolveCenter n e cj nm0).1.id = n.id := by
  unfold resolveCenter
  split
  · rename_i ec hfind
    have hb := List.find?_some hfind
    have hid : ec.id = n.id := by exact beq_iff_eq.mp hb
    split
    · exact hid
    · exact hid
  · split
    · rfl
    · rfl

theorem resolveCenter_main (n : WikiNode) (e : Bool) (cj : ℚ × ℚ) (nm0 : List WikiNode) :
    (resolveCenter n e cj nm0).1.group = Group.main := by
  unfold resolveCenter
  split
  · rename_i ec hfind
    split
    · rfl
    · rename_i hg
      cases hgg : ec.group with
      | main => rfl
      | sub =>
          rw [hgg] at hg
          simp at hg
  · split
    · rfl
    · rfl

theorem resolveCenter_mem_of_ne {n : WikiNode} {e : Bool} {cj : ℚ × ℚ}
    {nm0 : List WikiNode} {p : WikiNode} (hp : p ∈ nm0) (hne : p.id ≠ n.id) :
    p ∈ (resolveCenter n e cj nm0).2 := by
  unfold resolveCenter
  split
  · rename_i ec hfind
    have hb := List.find?_some hfind
    have hid : ec.id = n.id := by exact beq_iff_eq.mp hb
    split
    · exact nodeMapSet_mem_of_ne hp (by simpa [hid] using hne)
    · exact hp
  · split
    · exact nodeMapSet_mem_of_ne hp hne
    · exact nodeMapSet_mem_of_ne hp hne

theorem resolveCenter_center_mem (n : WikiNode) (e : Bool) (cj : ℚ × ℚ)
    (nm0 : List WikiNode) :
    (resolveCenter n e cj nm0).1 ∈ (resolveCenter n e cj nm0).2 := by
  unfold resolveCenter
  split
  · rename_i ec hfind
    split
    · exact nodeMapSet_mem_self _ _
    · exact List.mem_of_find?_eq_some hfind
  · split
    · exact nodeMapSet_mem_self _ _
    · exact nodeMapSet_mem_self _ _

theorem resolveCenter_ids_nodup {n : WikiNode} {e : Bool} {cj : ℚ × ℚ}
    {nm0 : List WikiNode} (h : (nm0.map (·.id)).Nodup) :
    ((resolveCenter n e cj nm0).2.map (·.id)).Nodup := by
  unfold resolveCenter
  split
  · split
    · exact nodeMapSet_ids_nodup h
    · exact h
  · split
    · exact nodeMapSet_ids_nodup h
    · exact nodeMapSet_ids_nodup h

/-! ## Link-map machinery -/

theorem hasKey_iff {lm : List WikiLink} {k : String} :
    linkMapHasKey lm k = true ↔ k ∈ lm.map linkKey := by
  unfold linkMapHasKey
  rw [List.any_eq_true]
  constructor
  · rintro ⟨p, hp, hpb⟩
    exact List.mem_map.mpr ⟨p, hp, beq_iff_eq.mp hpb⟩
  · intro hmem
    rcases List.mem_map.mp hmem with ⟨p, hp, hpk⟩
    exact ⟨p, hp, beq_iff_eq.mpr hpk⟩

theorem linkMapSet_mem {lm : List WikiLink} {l x : WikiLink}
    (hx : x ∈ linkMapSet lm l) : x ∈ lm ∨ x = l := by
  unfold linkMapSet at hx
  by_cases h : linkMapHasKey lm (linkKey l) = true
  · rw [if_pos h] at hx
    rcases List.mem_map.mp hx with ⟨p, hp, hpx⟩
    by_cases hb : (linkKey p == linkKey l) = true
    · rw [if_pos hb] at hpx
      exact Or.inr hpx.symm
    · rw [if_neg hb] at hpx
      exact Or.inl (hpx ▸ hp)
  · rw [if_neg h] at hx
    rcases List.mem_append.mp hx with h1 | h1
    · exact Or.inl h1
    · exact Or.inr (List.mem_singleton.mp h1)

theorem linkMapSet_keys (lm : List WikiLink) (l : WikiLink) :
    (linkMapSet lm l).map linkKey =
      if linkMapHasKey lm (linkKey l) then lm.map linkKey
      else lm.map linkKey ++ [linkKey l] := by
  unfold linkMapSet
  by_cases h : linkMapHasKey lm (linkKey l) = true
  · rw [if_pos h, if_pos h, List.map_map]
    apply List.map_congr_left
    intro p _
    by_cases hb : (linkKey p == linkKey l) = true
    · simp only [Function.comp_apply, hb, if_true]
      exact (beq_iff_eq.mp hb).symm
    · simp only [Function.comp_apply, hb]
      simp
  · rw [if_neg h, if_neg h, List.map_append]
    rfl

theorem linkMapSet_hasKey_mono {lm : List WikiLink} {l : WikiLink} {k : String}
    (h : linkMapHasKey lm k = true) : linkMapHasKey (linkMapSet lm l) k = true := by
  rw [hasKey_iff] at h ⊢
  rw [linkMapSet_keys]
  by_cases hc : linkMapHasKey lm (linkKey l) = true
  · rw [if_pos hc]; exact h
  · rw [if_neg hc]; exact List.mem_append.mpr (Or.inl h)

theorem linkMapSet_hasKey_self (lm : List WikiLink) (l : WikiLink) :
    linkMapHasKey (linkMapSet lm l) (linkKey l) = true := by
  rw [hasKey_iff, linkMapSet_keys]
  by_cases h : linkMapHasKey lm (linkKey l) = true
  · rw [if_pos h]; exact hasKey_iff.mp h
  · rw [if_neg h]; exact List.mem_append.mpr (Or.inr (List.mem_singleton.mpr rfl))

theorem linkMapSet_keys_nodup {lm : List WikiLink} {l : WikiLink}
    (h : (lm.map linkKey).Nodup) : ((linkMapSet lm l).map linkKey).Nodup := by
  rw [linkMapSet_keys]
  by_cases hc : linkMapHasKey lm (linkKey l) = true
  · rw [if_pos hc]; exact h
  · rw [if_neg hc]
    rw [List.nodup_append]
    refine ⟨h, List.nodup_singleton _, ?_⟩
    intro x hx hxl
    rw [List.mem_singleton] at hxl
    exact absurd (hasKey_iff.mpr (hxl ▸ hx)) (by simpa using hc)

theorem linkFold_mono {β : Type} {f : List WikiLink → β → List WikiLink}
    (hf : ∀ lm b, f lm b = lm ∨ ∃ c, f lm b = linkMapSet lm c) (l : List β) :
    ∀ lm k, linkMapHasKey lm k = true → linkMapHasKey (l.foldl f lm) k = true := by
  induction l with
  | nil => intro lm k h; exact h
  | cons b rest ih =>
      intro lm k h
      rw [List.foldl_cons]
      apply ih
      rcases hf lm b with he | ⟨c, he⟩ <;> rw [he]
      · exact h
      · exact linkMapSet_hasKey_mono h

theorem linkFold_mem {β : Type} {f : List WikiLink → β → List WikiLink}
    (P : WikiLink → Prop) (l : List β)
    (hf : ∀ lm b, b ∈ l → f lm b = lm ∨ ∃ c, f lm b = linkMapSet lm c ∧ P c) :
    ∀ lm x, x ∈ l.foldl f lm → x ∈ lm ∨ P x := by
  induction l with
  | nil => intro lm x h; exact Or.inl h
  | cons b rest ih =>
      intro lm x h
      rw [List.foldl_cons] at h
      have hrest := ih (fun lm b hb => hf lm b (List.mem_cons_of_mem _ hb)) _ x h
      rcases hrest with hx | hP
      · rcases hf lm b (List.mem_cons_self _ _) with he | ⟨c, he, hPc⟩
        · rw [he] at hx; exact Or.inl hx
        · rw [he] at hx
          rcases linkMapSet_mem hx with h1 | h1
          · exact Or.inl h1
          · exact Or.inr (h1 ▸ hPc)
      · exact Or.inr hP

theorem linkFold_keys_nodup {β : Type} {f : List WikiLink → β → List WikiLink}
    (hf : ∀ lm b, f lm b = lm ∨ ∃ c, f lm b = linkMapSet lm c) (l : List β) :
    ∀ lm, (lm.map linkKey).Nodup → ((l.foldl f lm).map linkKey).Nodup := by
  induction l with
  | nil => intro lm h; exact h
  | cons b rest ih =>
      intro lm h
      rw [List.foldl_cons]
      apply ih
      rcases hf lm b with he | ⟨c, he⟩ <;> rw [he]
      · exact h
      · exact linkMapSet_keys_nodup h

theorem linkFold_insert_exists {β : Type} (cond : β → Bool) (key : β → String)
    (mk : β → WikiLink) (hkey : ∀ b, linkKey (mk b) = key b) (l : List β) :
    ∀ lm b, b ∈ l → cond b = true →
      linkMapHasKey (l.foldl (fun lm b => if cond b then
          (if linkMapHasKey lm (key b) then lm else linkMapSet lm (mk b)) else lm) lm)
        (key b) = true := by
  have hshape : ∀ (lm : List WikiLink) (b : β),
      (if cond b then (if linkMapHasKey lm (key b) then lm else linkMapSet lm (mk b))
       else lm) = lm ∨
      ∃ c, (if cond b then
          (if linkMapHasKey lm (key b) then lm else linkMapSet lm (mk b)) else lm) =
        linkMapSet lm c := by
    intro lm b
    by_cases hc : cond b = true
    · rw [if_pos hc]
      by_cases hk : linkMapHasKey lm (key b) = true
      · rw [if_pos hk]; exact Or.inl rfl
      · rw [if_neg hk]; exact Or.inr ⟨mk b, rfl⟩
    · rw [if_neg hc]; exact Or.inl rfl
  induction l with
  | nil => intro lm b hb; cases hb
  | cons b0 rest ih =>
      intro lm b hb hc
      rw [List.foldl_cons]
      rcases List.mem_cons.mp hb with rfl | hbr
      · apply linkFold_mono hshape rest
        rw [if_pos hc]
        by_cases hk : linkMapHasKey lm (key b) = true
        · rw [if_pos hk]; exact hk
        · rw [if_neg hk]
          rw [← hkey b]
          exact linkMapSet_hasKey_self lm (mk b)
      · exact ih _ b hbr hc

/-! ## rebuildLinks facts -/

theorem preserveLinks_shape (nm : List WikiNode) :
    ∀ (lm : List WikiLink) (l : WikiLink),
      (if nm.any (fun p => p.id == l.source) && nm.any (fun p => p.id == l.target) then
        linkMapSet lm ⟨l.source, l.target, l.value⟩ else lm) = lm ∨
      (if nm.any (fun p => p.id == l.source) && nm.any (fun p => p.id == l.target) then
        linkMapSet lm ⟨l.source, l.target, l.value⟩ else lm) =
        linkMapSet lm ⟨l.source, l.target, l.value⟩ := by
  intro lm l
  by_cases hc : (nm.any (fun p => p.id == l.source) && nm.any (fun p => p.id == l.target))
      = true
  · rw [if_pos hc]; exact Or.inr rfl
  · rw [if_neg hc]; exact Or.inl rfl

theorem addBatchLinks_shape (centerId : String) (nm : List WikiNode) :
    ∀ (lm : List WikiLink) (l : WikiLink),
      (if nm.any (fun p => p.id == l.target) then
        (if linkMapHasKey lm (getLinkId centerId l.target) then lm
         else linkMapSet lm ⟨centerId, l.target, 1⟩) else lm) = lm ∨
      (if nm.any (fun p => p.id == l.target) then
        (if linkMapHasKey lm (getLinkId centerId l.target) then lm
         else linkMapSet lm ⟨centerId, l.target, 1⟩) else lm) =
        linkMapSet lm ⟨centerId, l.target, 1⟩ := by
  intro lm l
  by_cases hc : nm.any (fun p => p.id == l.target) = true
  · rw [if_pos hc]
    by_cases hk : linkMapHasKey lm (getLinkId centerId l.target) = true
    · rw [if_pos hk]; exact Or.inl rfl
    · rw [if_neg hk]; exact Or.inr rfl
  · rw [if_neg hc]; exact Or.inl rfl

theorem addCrossMainLinks_shape (centerId : String) (dataNodes : List WikiNode) :
    ∀ (lm : List WikiLink) (pt : WikiNode),
      (if pt.group == Group.main && pt.id != centerId &&
          dataNodes.any (fun n => n.id == pt.id) then
        (if linkMapHasKey lm (getLinkId centerId pt.id) then lm
         else linkMapSet lm ⟨centerId, pt.id, 1⟩) else lm) = lm ∨
      (if pt.group == Group.main && pt.id != centerId &&
          dataNodes.any (fun n => n.id == pt.id) then
        (if linkMapHasKey lm (getLinkId centerId pt.id) then lm
         else linkMapSet lm ⟨centerId, pt.id, 1⟩) else lm) =
        linkMapSet lm ⟨centerId, pt.id, 1⟩ := by
  intro lm pt
  by_cases hc : (pt.group == Group.main && pt.id != centerId &&
      dataNodes.any (fun n => n.id == pt.id)) = true
  · rw [if_pos hc]
    by_cases hk : linkMapHasKey lm (getLinkId centerId pt.id) = true
    · rw [if_pos hk]; exact Or.inl rfl
    · rw [if_neg hk]; exact Or.inr rfl
  · rw [if_neg hc]; exact Or.inl rfl

/-- Every link in the rebuilt link set is either a preserved previous
link or has the merge center as its source. -/
theorem rebuildLinks_mem (centerId : String) (nm : List WikiNode)
    (prevLinks : List WikiLink) (data : GraphData) :
    ∀ x ∈ rebuildLinks centerId nm prevLinks data,
      x ∈ prevLinks ∨ x.source = centerId := by
  intro x hx
  unfold rebuildLinks addCrossMainLinks at hx
  have h3 := linkFold_mem (fun c => c.source = centerId) nm
    (fun lm pt _ => (addCrossMainLinks_shape centerId data.nodes lm pt).imp id
      (fun he => ⟨⟨centerId, pt.id, 1⟩, he, rfl⟩)) _ x hx
  rcases h3 with hx1 | hP
  · unfold addBatchLinks at hx1
    have h2 := linkFold_mem (fun c => c.source = centerId) data.links
      (fun lm l _ => (addBatchLinks_shape centerId nm lm l).imp id
        (fun he => ⟨⟨centerId, l.target, 1⟩, he, rfl⟩)) _ x hx1
    rcases h2 with hx0 | hP
    · unfold preserveLinks at hx0
      have h1 := linkFold_mem (fun c => c ∈ prevLinks) prevLinks
        (fun lm l hl => (preserveLinks_shape nm lm l).imp id
          (fun he => ⟨⟨l.source, l.target, l.value⟩, he, hl⟩)) _ x hx0
      rcases h1 with h0 | hP
      · cases h0
      · exact Or.inl hP
    · exact Or.inr hP
  · exact Or.inr hP

/-- The rebuilt link set has pairwise-distinct keys. -/
theorem rebuildLinks_keys_nodup (centerId : String) (nm : List WikiNode)
    (prevLinks : List WikiLink) (data : GraphData) :
    ((rebuildLinks centerId nm prevLinks data).map linkKey).Nodup := by
  unfold rebuildLinks addCrossMainLinks
  apply linkFold_keys_nodup
    (fun lm pt => (addCrossMainLinks_shape centerId data.nodes lm pt).imp id
      (fun he => ⟨_, he⟩))
  unfold addBatchLinks
  apply linkFold_keys_nodup
    (fun lm l => (addBatchLinks_shape centerId nm lm l).imp id (fun he => ⟨_, he⟩))
  unfold preserveLinks
  apply linkFold_keys_nodup
    (fun lm l => (preserveLinks_shape nm lm l).imp id (fun he => ⟨_, he⟩))
  simp

/-- After the rebuild, the key `center -> bl.target` is present for
every fetched link `bl` whose target is in the node map. -/
theorem rebuildLinks_batch_hasKey (centerId : String) (nm : List WikiNode)
    (prevLinks : List WikiLink) (data : GraphData) {bl : WikiLink}
    (hbl : bl ∈ data.links) (hcond : nm.any (fun p => p.id == bl.target) = true) :
    linkMapHasKey (rebuildLinks centerId nm prevLinks data)
      (getLinkId centerId bl.target) = true := by
  unfold rebuildLinks addCrossMainLinks
  apply linkFold_mono
    (fun lm pt => (addCrossMainLinks_shape centerId data.nodes lm pt).imp id
      (fun he => ⟨_, he⟩))
  unfold addBatchLinks
  exact linkFold_insert_exists (fun l => nm.any (fun p => p.id == l.target))
    (fun l => getLinkId centerId l.target) (fun l => ⟨centerId, l.target, 1⟩)
    (by intro b; rfl) data.links _ bl hbl hcond

/-- After the rebuild, the key `center -> pt.id` is present for every
node-map entry `pt` passing the cross-main condition. -/
theorem rebuildLinks_cross_hasKey (centerId : String) (nm : List WikiNode)
    (prevLinks : List WikiLink) (data : GraphData) {pt : WikiNode}
    (hpt : pt ∈ nm)
    (hcond : (pt.group == Group.main && pt.id != centerId &&
      data.nodes.any (fun n => n.id == pt.id)) = true) :
    linkMapHasKey (rebuildLinks centerId nm prevLinks data)
      (getLinkId centerId pt.id) = true := by
  unfold rebuildLinks addCrossMainLinks
  exact linkFold_insert_exists
    (fun pt => pt.group == Group.main && pt.id != centerId &&
      data.nodes.any (fun n => n.id == pt.id))
    (fun pt => getLinkId centerId pt.id) (fun pt => ⟨centerId, pt.id, 1⟩)
    (by intro b; rfl) nm _ pt hpt hcond

/-- Extraction of an ordered pair from a present key, under the no-alias
side condition on previous links. -/
theorem rebuildLinks_pair (centerId : String) (nm : List WikiNode)
    (prevLinks : List WikiLink) (data : GraphData) (t : String)
    (hcol : ∀ l ∈ prevLinks,
      strPrefixB (centerId ++ "->") (linkKey l) = true → l.source = centerId)
    (hkey : linkMapHasKey (rebuildLinks centerId nm prevLinks data)
      (getLinkId centerId t) = true) :
    ∃ x ∈ rebuildLinks centerId nm prevLinks data,
      x.source = centerId ∧ x.target = t := by
  rcases List.mem_map.mp (hasKey_iff.mp hkey) with ⟨x, hx, hxk⟩
  have hsrc : x.source = centerId := by
    rcases rebuildLinks_mem centerId nm prevLinks data x hx with hp | hc
    · apply hcol x hp
      rw [hxk]
      unfold strPrefixB getLinkId
      rw [decide_eq_true_eq]
      have hpre := List.prefix_append (centerId ++ "->").data t.data
      rw [← String.data_append] at hpre
      exact hpre
    · exact hc
  have htgt : x.target = t := by
    have h1 : linkKey x = (centerId ++ "->") ++ x.target := by
      unfold linkKey getLinkId
      rw [hsrc]
    rw [h1] at hxk
    have hd := congrArg String.data hxk
    rw [String.data_append (centerId ++ "->") x.target] at hd
    rw [show getLinkId centerId t = (centerId ++ "->") ++ t from rfl] at hd
    rw [String.data_append (centerId ++ "->") t] at hd
    exact String.ext (List.append_cancel_left hd)
  exact ⟨x, hx, hsrc, htgt⟩

/-- Distinct keys give distinct ordered pairs. -/
theorem pair_distinct_of_keys_nodup {lm : List WikiLink}
    (h : (lm.map linkKey).Nodup) :
    List.Pairwise (fun a b => ¬(a.source = b.source ∧ a.target = b.target)) lm := by
  rw [List.Nodup, List.pairwise_map] at h
  refine h.imp ?_
  intro a b hab hpair
  apply hab
  unfold linkKey getLinkId
  rw [hpair.1, hpair.2]

/-! ## Updater-level lemmas -/

theorem expandNodeMap_mem_of_ne {c : String} {d : GraphData} {jit : String → ℚ × ℚ}
    {g : GraphData} (hnd : (g.nodes.map (·.id)).Nodup) {n : WikiNode}
    (hn : n ∈ g.nodes) (hne : n.id ≠ c) : n ∈ expandNodeMap c d jit g := by
  unfold expandNodeMap
  rw [buildNodeMap_eq_self hnd]
  exact childFold_mem (seedNearParent_id _ c jit) _ _ n (promoteCenter_mem_of_ne hn hne)

theorem expandNodeMap_promoted {c : String} {d : GraphData} {jit : String → ℚ × ℚ}
    {g : GraphData} (hnd : (g.nodes.map (·.id)).Nodup) {n : WikiNode}
    (hn : n ∈ g.nodes) (hid : n.id = c) :
    ∃ n' ∈ expandNodeMap c d jit g, n'.id = n.id ∧ n'.group = Group.main := by
  unfold expandNodeMap
  rw [buildNodeMap_eq_self hnd]
  rcases promoteCenter_promoted hnd hn hid with ⟨n', hn', hid', hmain'⟩
  exact ⟨n', childFold_mem (seedNearParent_id _ c jit) _ _ n' hn', hid', hmain'⟩

theorem expandNodeMap_has_child {c : String} {d : GraphData} {jit : String → ℚ × ℚ}
    {g : GraphData} {ch : WikiNode} (hch : ch ∈ d.nodes.drop 1) :
    (expandNodeMap c d jit g).any (fun p => p.id == ch.id) = true := by
  unfold expandNodeMap
  exact childFold_has_child (seedNearParent_id _ c jit) _ _ ch hch

theorem expandNodeMap_ids_nodup (c : String) (d : GraphData) (jit : String → ℚ × ℚ)
    (g : GraphData) : ((expandNodeMap c d jit g).map (·.id)).Nodup :=
  childFold_ids_nodup _ _ (promoteCenter_ids_nodup (buildNodeMap_ids_nodup _))

theorem searchMerge_eq (data : GraphData) (n0 : WikiNode) (children : List WikiNode)
    (hd : data.nodes = n0 :: children) (cjit : ℚ × ℚ) (jit : String → ℚ × ℚ)
    (g : GraphData) :
    searchMerge data cjit jit g =
      ⟨childFold
         (seedNearCenter (resolveCenter
            (if g.nodes.isEmpty then { n0 with source := some "ROOT" } else n0)
            g.nodes.isEmpty cjit (buildNodeMap g.nodes)).1 jit)
         children
         (resolveCenter
            (if g.nodes.isEmpty then { n0 with source := some "ROOT" } else n0)
            g.nodes.isEmpty cjit (buildNodeMap g.nodes)).2,
       rebuildLinks
         (resolveCenter
            (if g.nodes.isEmpty then { n0 with source := some "ROOT" } else n0)
            g.nodes.isEmpty cjit (buildNodeMap g.nodes)).1.id
         (childFold
           (seedNearCenter (resolveCenter
              (if g.nodes.isEmpty then { n0 with source := some "ROOT" } else n0)
              g.nodes.isEmpty cjit (buildNodeMap g.nodes)).1 jit)
           children
           (resolveCenter
              (if g.nodes.isEmpty then { n0 with source := some "ROOT" } else n0)
              g.nodes.isEmpty cjit (buildNodeMap g.nodes)).2)
         g.links data⟩ := by
  unfold searchMerge
  rw [hd]

theorem rootTag_id (n0 : WikiNode) (e : Bool) :
    (if e then { n0 with source := some "ROOT" } else n0).id = n0.id := by
  cases e <;> rfl

theorem searchMerge_mem_of_ne {data : GraphData} {cjit : ℚ × ℚ}
    {jit : String → ℚ × ℚ} {g : GraphData} (hnd : (g.nodes.map (·.id)).Nodup)
    {n : WikiNode} (hn : n ∈ g.nodes)
    (hne : ∀ n0, data.nodes.head? = some n0 → n.id ≠ n0.id) :
    n ∈ (searchMerge data cjit jit g).nodes := by
  cases hd : data.nodes with
  | nil =>
      unfold searchMerge
      rw [hd]
      exact hn
  | cons n0 children =>
      rw [searchMerge_eq data n0 children hd]
      apply childFold_mem (seedNearCenter_id _ jit) _ _ n
      apply resolveCenter_mem_of_ne
      · rw [buildNodeMap_eq_self hnd]; exact hn
      · rw [rootTag_id]
        exact hne n0 (by rw [hd]; rfl)

theorem searchMerge_center_promoted {data : GraphData} {cjit : ℚ × ℚ}
    {jit : String → ℚ × ℚ} {g : GraphData} {n0 : WikiNode} {children : List WikiNode}
    (hd : data.nodes = n0 :: children) :
    ∃ n' ∈ (searchMerge data cjit jit g).nodes,
      n'.id = n0.id ∧ n'.group = Group.main := by
  rw [searchMerge_eq data n0 children hd]
  refine ⟨_, childFold_mem (seedNearCenter_id _ jit) _ _ _
      (resolveCenter_center_mem _ _ _ _), ?_, resolveCenter_main _ _ _ _⟩
  rw [resolveCenter_id, rootTag_id]

/-! ## Empty-batch behaviour (C3) -/

theorem linkMapSet_of_fresh {lm : List WikiLink} {l : WikiLink}
    (h : linkMapHasKey lm (linkKey l) = false) : linkMapSet lm l = lm ++ [l] := by
  unfold linkMapSet
  rw [h]
  simp

theorem any_id_map_congr {l : List WikiNode} {f : WikiNode → WikiNode}
    (hf : ∀ p ∈ l, (f p).id = p.id) (k : String) :
    (l.map f).any (fun p => p.id == k) = l.any (fun p => p.id == k) := by
  induction l with
  | nil => rfl
  | cons p rest ih =>
      simp only [List.map_cons, List.any_cons]
      rw [hf p (List.mem_cons_self _ _),
        ih (fun q hq => hf q (List.mem_cons_of_mem _ hq))]

theorem addCrossMainLinks_empty (centerId : String) (nm : List WikiNode)
    (lm : List WikiLink) : addCrossMainLinks centerId nm [] lm = lm := by
  unfold addCrossMainLinks
  induction nm generalizing lm with
  | nil => rfl
  | cons pt rest ih =>
      rw [List.foldl_cons]
      have hstep : (if pt.group == Group.main && pt.id != centerId &&
          (([] : List WikiNode).any fun n => n.id == pt.id) then
          (if linkMapHasKey lm (getLinkId centerId pt.id) then lm
           else linkMapSet lm ⟨centerId, pt.id, 1⟩) else lm) = lm := by
        simp
      rw [hstep]
      exact ih lm

theorem preserveLinks_of_all (nm : List WikiNode) (links : List WikiLink)
    (hall : ∀ l ∈ links, (nm.any (fun p => p.id == l.source) &&
      nm.any (fun p => p.id == l.target)) = true)
    (hkeys : (links.map linkKey).Nodup) :
    preserveLinks nm links = links := by
  unfold preserveLinks
  suffices h : ∀ (ls : List WikiLink) (acc : List WikiLink),
      (∀ l ∈ ls, (nm.any (fun p => p.id == l.source) &&
        nm.any (fun p => p.id == l.target)) = true) →
      ((acc.map linkKey ++ ls.map linkKey).Nodup) →
      ls.foldl (fun lm l =>
        if nm.any (fun p => p.id == l.source) && nm.any (fun p => p.id == l.target) then
          linkMapSet lm ⟨l.source, l.target, l.value⟩
        else lm) acc = acc ++ ls by
    simpa using h links [] hall (by simpa using hkeys)
  intro ls
  induction ls with
  | nil => intro acc _ _; simp
  | cons l rest ih =>
      intro acc hall h
      rw [List.foldl_cons]
      rw [if_pos (hall l (List.mem_cons_self _ _))]
      have hlk : linkKey (⟨l.source, l.target, l.value⟩ : WikiLink) = linkKey l := rfl
      have hnotmem : linkKey l ∉ acc.map linkKey := by
        rw [List.map_cons, List.nodup_append] at h
        intro hcontra
        exact h.2.2 hcontra (List.mem_cons_self _ _)
      have hfresh : linkMapHasKey acc (linkKey (⟨l.source, l.target, l.value⟩ : WikiLink))
          = false := by
        rw [hlk]
        by_cases hb : linkMapHasKey acc (linkKey l) = true
        · exact absurd (hasKey_iff.mp hb) hnotmem
        · revert hb; cases linkMapHasKey acc (linkKey l) <;> simp
      rw [linkMapSet_of_fresh hfresh]
      have heta : (⟨l.source, l.target, l.value⟩ : WikiLink) = l := rfl
      rw [heta]
      have h' : ((acc ++ [l]).map linkKey ++ rest.map linkKey).Nodup := by
        rw [List.map_append]
        simpa [List.append_assoc] using h
      have := ih (acc ++ [l]) (fun l' hl' => hall l' (List.mem_cons_of_mem _ hl')) h'
      simpa [List.append_assoc] using this

/-- C3-counterexample.  The sub-node expand path does NOT leave the
graph unchanged on a successful fetch with zero nodes: clicking the Sub
node `A` of `gEmpty` with an empty batch flips its group to Main. -/
theorem expand_empty_batch_mutates :
    handleNodeClick ⟨"A", Group.sub, "", none, none, none, none⟩ (some ⟨[], []⟩)
      jitter0 gEmpty ≠ gEmpty := by
  decide

/-- C3 (amended).  On a fetch that succeeds with zero nodes: the search
path throws before merging, leaving the graph unchanged; the expand path
still runs its updater, which adds no node, adds and removes no link and
touches no field of any node except the clicked node's group, which is
set to Main (its description is not overwritten). -/
theorem empty_batch_effect (g : GraphData) (c : String) (jitE jitS : String → ℚ × ℚ)
    (cjit : ℚ × ℚ)
    (hnd : (g.nodes.map (·.id)).Nodup)
    (hkeys : (g.links.map linkKey).Nodup)
    (hwf : ∀ l ∈ g.links, (g.nodes.any (fun p => p.id == l.source) &&
        g.nodes.any (fun p => p.id == l.target)) = true) :
    (∀ (ls : List WikiLink) (g' : GraphData),
        handleSearchApply ⟨[], ls⟩ cjit jitS g' = g') ∧
    expandUpdate c ⟨[], []⟩ jitE g =
      ⟨g.nodes.map (fun n => if n.id == c then { n with group := Group.main } else n),
       g.links⟩ := by
  have hfid : ∀ p ∈ g.nodes,
      ((fun n => if n.id == c then { n with group := Group.main } else n) p).id = p.id := by
    intro p _
    by_cases hb : (p.id == c) = true
    · simp [hb]
    · simp [hb]
  constructor
  · intro ls g'; rfl
  · have hnm : expandNodeMap c ⟨[], []⟩ jitE g =
        g.nodes.map (fun n => if n.id == c then { n with group := Group.main } else n) := by
      unfold expandNodeMap
      rw [buildNodeMap_eq_self hnd]
      show promoteCenter c ⟨[], []⟩ g.nodes =
        g.nodes.map (fun n => if n.id == c then { n with group := Group.main } else n)
      unfold promoteCenter
      cases hfind : g.nodes.find? (fun n => n.id == c) with
      | none =>
          have hcongr : ∀ n ∈ g.nodes,
              (if n.id == c then { n with group := Group.main } else n) = n := by
            intro n hn
            rw [List.find?_eq_none] at hfind
            have hb : (n.id == c) = false := by
              have := hfind n hn
              revert this; cases (n.id == c) <;> simp
            rw [hb]
            simp
          rw [List.map_congr_left hcongr]
          simp
      | some en =>
          have hb := List.find?_some hfind
          have henc : en.id = c := by exact beq_iff_eq.mp hb
          have henm : en ∈ g.nodes := List.mem_of_find?_eq_some hfind
          show nodeMapSet g.nodes { en with group := Group.main } =
            g.nodes.map (fun n => if n.id == c then { n with group := Group.main } else n)
          unfold nodeMapSet
          rw [if_pos (any_id_of_mem henm (show en.id =
            ({ en with group := Group.main } : WikiNode).id from rfl))]
          apply List.map_congr_left
          intro p hp
          by_cases hpc : (p.id == ({ en with group := Group.main } : WikiNode).id) = true
          · have hpc' : p.id = en.id := beq_iff_eq.mp hpc
            have hpe : p = en := eq_of_mem_nodup_id hnd hp henm hpc'
            have hpcb : (p.id == c) = true := by rw [hpc', henc]; simp
            rw [if_pos hpc, if_pos hpcb, hpe]
          · have hpne : p.id ≠ en.id := by
              intro hcontra
              exact hpc (by simp [hcontra])
            have hpcb : (p.id == c) = false := by
              rw [beq_eq_false_iff_ne]
              rw [← henc]
              exact hpne
            rw [if_neg hpc, hpcb]
            simp
    unfold expandUpdate
    rw [hnm]
    have hlinks : rebuildLinks c
        (g.nodes.map (fun n => if n.id == c then { n with group := Group.main } else n))
        g.links ⟨[], []⟩ = g.links := by
      unfold rebuildLinks
      show addCrossMainLinks c _ [] (addBatchLinks c _ [] (preserveLinks _ g.links)) = _
      rw [addCrossMainLinks_empty]
      show preserveLinks _ g.links = g.links
      apply preserveLinks_of_all _ _ ?_ hkeys
      intro l hl
      rw [any_id_map_congr hfid l.source, any_id_map_congr hfid l.target]
      exact hwf l hl
    rw [hlinks]

/-- Witness for the amended C3 on `gEmpty`. -/
theorem empty_batch_effect_witness :
    (∀ (ls : List WikiLink) (g' : GraphData),
        handleSearchApply ⟨[], ls⟩ cjitter0 jitter0 g' = g') ∧
    expandUpdate "A" ⟨[], []⟩ jitter0 gEmpty =
      ⟨gEmpty.nodes.map (fun n =>
        if n.id == "A" then { n with group := Group.main } else n),
       gEmpty.links⟩ :=
  empty_batch_effect gEmpty "A" jitter0 jitter0 cjitter0 (by decide) (by decide)
    (by decide)

/-! ## C4: merge frame -/

/-- C4-counterexample.  A batch child whose id is already present is not
always left untouched: when the clicked node's own id appears among the
batch children (possible after a redirect), the merge overwrites its
description as the expansion center. -/
theorem merge_child_center_overlap :
    ("A" ∈ (dOverlap.nodes.drop 1).map (·.id)) ∧
    (gOverlap.nodes.any (fun n => n.id == "A") = true) ∧
    (∃ n ∈ gOverlap.nodes, n.id = "A" ∧ n.description = some "old") ∧
    ¬ (∃ n ∈ (expandUpdate "A" dOverlap jitter0 gOverlap).nodes,
        n.id = "A" ∧ n.description = some "old") := by
  decide

/-- C4 (amended).  In both merges, every existing node whose id differs
from the expansion center survives entirely untouched (so its group is
never downgraded, its description never overwritten, and no existing
node or child is ever removed — the node set grows monotonically); a
node with the center's id also survives under its id and is never
downgraded from Main (though, as the center, its description may be
overwritten — the one carve-out the counterexample forces). -/
theorem merge_frame (g d : GraphData) (c : String) (jitE jitS : String → ℚ × ℚ)
    (cjit : ℚ × ℚ) (hnd : (g.nodes.map (·.id)).Nodup) :
    (∀ n ∈ g.nodes,
      (n.id ≠ c → n ∈ (expandUpdate c d jitE g).nodes) ∧
      ∃ n' ∈ (expandUpdate c d jitE g).nodes,
        n'.id = n.id ∧ (n.group = Group.main → n'.group = Group.main)) ∧
    (∀ n ∈ g.nodes,
      ((∀ n0, d.nodes.head? = some n0 → n.id ≠ n0.id) →
        n ∈ (searchMerge d cjit jitS g).nodes) ∧
      ∃ n' ∈ (searchMerge d cjit jitS g).nodes,
        n'.id = n.id ∧ (n.group = Group.main → n'.group = Group.main)) := by
  constructor
  · intro n hn
    constructor
    · intro hne
      show n ∈ expandNodeMap c d jitE g
      exact expandNodeMap_mem_of_ne hnd hn hne
    · by_cases hid : n.id = c
      · rcases @expandNodeMap_promoted c d jitE g hnd n hn hid with ⟨n', h1, h2, h3⟩
        exact ⟨n', h1, h2, fun _ => h3⟩
      · exact ⟨n, expandNodeMap_mem_of_ne hnd hn hid, rfl, fun h => h⟩
  · intro n hn
    constructor
    · intro hne
      exact searchMerge_mem_of_ne hnd hn hne
    · cases hd : d.nodes with
      | nil =>
          refine ⟨n, ?_, rfl, fun h => h⟩
          unfold searchMerge
          rw [hd]
          exact hn
      | cons n0 children =>
          by_cases hid : n.id = n0.id
          · rcases @searchMerge_center_promoted d cjit jitS g n0 children hd
              with ⟨n', h1, h2, h3⟩
            exact ⟨n', h1, by rw [h2, hid], fun _ => h3⟩
          · refine ⟨n, searchMerge_mem_of_ne hnd hn ?_, rfl, fun h => h⟩
            intro m0 hm0
            rw [hd] at hm0
            injection hm0 with hm0e
            rw [← hm0e]
            exact hid

/-- Witness for the amended C4: merging `dOverlap` at center `C` into
`gDel` keeps the untouched Main node `A`. -/
theorem merge_frame_witness :
    (⟨"A", Group.main, "", none, none, none, none⟩ : WikiNode) ∈
      (expandUpdate "C" dOverlap jitter0 gDel).nodes := by
  have h := merge_frame gDel dOverlap "C" jitter0 jitter0 cjitter0 (by decide)
  exact (h.1 _ (by decide)).1 (by decide)

/-! ## C5: merge cross-links -/

/-- C5-counterexample.  The link map is keyed by the string
`source + "->" + target`, so ids containing `"->"` can alias: in
`gColl`, the preserved link `a → b->c` occupies the key `"a->b->c"`,
and expanding `a->b` with a batch containing the existing Main node `c`
then fails to add the ordered pair `(a->b, c)` the claim requires. -/
theorem merge_crosslink_key_collision :
    ((⟨"c", Group.main, "", none, none, none, none⟩ : WikiNode) ∈ gColl.nodes) ∧
    ("c" : String) ≠ "a->b" ∧
    (dColl.nodes.any (fun n => n.id == "c") = true) ∧
    ¬ (∃ l ∈ (expandUpdate "a->b" dColl jitter0 gColl).links,
        l.source = "a->b" ∧ l.target = "c") := by
  decide

/-- C5 (amended).  Provided no previously retained link's key aliases a
key of the form `c + "->" + …` (automatic when ids avoid the `"->"`
separator), every merge with center `c` adds a link `(c, m)` for every
other existing Main node `m` appearing among the batch's nodes, and a
link `(c, child)` for every batch child that is the target of a batch
link, and the merged link set never holds two links with the same
ordered `(source, target)` pair. -/
theorem merge_crosslinks (g d : GraphData) (c : String) (jitE jitS : String → ℚ × ℚ)
    (cjit : ℚ × ℚ)
    (hnd : (g.nodes.map (·.id)).Nodup)
    (hcol : ∀ l ∈ g.links,
      strPrefixB (c ++ "->") (linkKey l) = true → l.source = c) :
    ((∀ m ∈ g.nodes, m.group = Group.main → m.id ≠ c →
        (d.nodes.any (fun n => n.id == m.id)) = true →
        ∃ l ∈ (expandUpdate c d jitE g).links, l.source = c ∧ l.target = m.id) ∧
     (∀ t : String, ((d.nodes.drop 1).any (fun ch => ch.id == t)) = true →
        (d.links.any (fun bl => bl.target == t)) = true →
        ∃ l ∈ (expandUpdate c d jitE g).links, l.source = c ∧ l.target = t) ∧
     List.Pairwise (fun a b => ¬(a.source = b.source ∧ a.target = b.target))
       (expandUpdate c d jitE g).links) ∧
    (∀ (n0 : WikiNode) (children : List WikiNode), d.nodes = n0 :: children →
      n0.id = c →
      ((∀ m ∈ g.nodes, m.group = Group.main → m.id ≠ c →
          (d.nodes.any (fun n => n.id == m.id)) = true →
          ∃ l ∈ (searchMerge d cjit jitS g).links, l.source = c ∧ l.target = m.id) ∧
       (∀ t : String, (children.any (fun ch => ch.id == t)) = true →
          (d.links.any (fun bl => bl.target == t)) = true →
          ∃ l ∈ (searchMerge d cjit jitS g).links, l.source = c ∧ l.target = t) ∧
       List.Pairwise (fun a b => ¬(a.source = b.source ∧ a.target = b.target))
         (searchMerge d cjit jitS g).links)) := by
  constructor
  · refine ⟨?_, ?_, ?_⟩
    · intro m hm hmain hne hany
      show ∃ l ∈ rebuildLinks c (expandNodeMap c d jitE g) g.links d,
        l.source = c ∧ l.target = m.id
      apply rebuildLinks_pair c _ g.links d m.id hcol
      apply rebuildLinks_cross_hasKey c _ g.links d
        (expandNodeMap_mem_of_ne hnd hm hne)
      simp [hmain, hne, hany]
    · intro t hch hbl
      rcases List.any_eq_true.mp hch with ⟨ch, hchm, hchid⟩
      rcases List.any_eq_true.mp hbl with ⟨bl, hblm, hblt⟩
      have hchid' : ch.id = t := beq_iff_eq.mp hchid
      have hblt' : bl.target = t := beq_iff_eq.mp hblt
      show ∃ l ∈ rebuildLinks c (expandNodeMap c d jitE g) g.links d,
        l.source = c ∧ l.target = t
      have hkey := rebuildLinks_batch_hasKey c (expandNodeMap c d jitE g) g.links d
        hblm (by rw [hblt', ← hchid']; exact expandNodeMap_has_child hchm)
      rw [hblt'] at hkey
      exact rebuildLinks_pair c _ g.links d t hcol hkey
    · exact pair_distinct_of_keys_nodup (rebuildLinks_keys_nodup c _ g.links d)
  · intro n0 children hd hc0
    have hcid : (resolveCenter
        (if g.nodes.isEmpty then { n0 with source := some "ROOT" } else n0)
        g.nodes.isEmpty cjit (buildNodeMap g.nodes)).1.id = c := by
      rw [resolveCenter_id, rootTag_id, hc0]
    refine ⟨?_, ?_, ?_⟩
    · intro m hm hmain hne hany
      rw [searchMerge_eq d n0 children hd]
      show ∃ l ∈ rebuildLinks (resolveCenter
          (if g.nodes.isEmpty then { n0 with source := some "ROOT" } else n0)
          g.nodes.isEmpty cjit (buildNodeMap g.nodes)).1.id _ g.links d,
        l.source = c ∧ l.target = m.id
      rw [hcid]
      apply rebuildLinks_pair c _ g.links d m.id hcol
      apply rebuildLinks_cross_hasKey c _ g.links d ?_ (by simp [hmain, hne, hany])
      apply childFold_mem (seedNearCenter_id _ jitS) _ _ m
      apply resolveCenter_mem_of_ne
      · rw [buildNodeMap_eq_self hnd]; exact hm
      · rw [rootTag_id, hc0]; exact hne
    · intro t hch hbl
      rcases List.any_eq_true.mp hch with ⟨ch, hchm, hchid⟩
      rcases List.any_eq_true.mp hbl with ⟨bl, hblm, hblt⟩
      have hchid' : ch.id = t := beq_iff_eq.mp hchid
      have hblt' : bl.target = t := beq_iff_eq.mp hblt
      rw [searchMerge_eq d n0 children hd]
      show ∃ l ∈ rebuildLinks (resolveCenter
          (if g.nodes.isEmpty then { n0 with source := some "ROOT" } else n0)
          g.nodes.isEmpty cjit (buildNodeMap g.nodes)).1.id _ g.links d,
        l.source = c ∧ l.target = t
      rw [hcid]
      have hkey := rebuildLinks_batch_hasKey c
        (childFold (seedNearCenter (resolveCenter
            (if g.nodes.isEmpty then { n0 with source := some "ROOT" } else n0)
            g.nodes.isEmpty cjit (buildNodeMap g.nodes)).1 jitS)
          children
          (resolveCenter
            (if g.nodes.isEmpty then { n0 with source := some "ROOT" } else n0)
            g.nodes.isEmpty cjit (buildNodeMap g.nodes)).2)
        g.links d hblm
        (by rw [hblt', ← hchid']
            exact childFold_has_child (seedNearCenter_id _ jitS) _ _ ch hchm)
      rw [hblt'] at hkey
      exact rebuildLinks_pair c _ g.links d t hcol hkey
    · rw [searchMerge_eq d n0 children hd]
      exact pair_distinct_of_keys_nodup (rebuildLinks_keys_nodup _ _ g.links d)

/-- Witness for the amended C5: expanding `C` in `gDel` with the batch
`dOverlap` (which lists the existing Main node `A`) adds the cross link
`(C, A)`. -/
theorem merge_crosslinks_witness :
    ∃ l ∈ (expandUpdate "C" dOverlap jitter0 gDel).links,
      l.source = "C" ∧ l.target = "A" := by
  have h := merge_crosslinks gDel dOverlap "C" jitter0 jitter0 cjitter0
    (by decide) (by decide)
  exact h.1.1 ⟨"A", Group.main, "", none, none, none, none⟩ (by decide) rfl
    (by decide) (by decide)

/-! ## C10: searching an existing title -/

/-- C10.  Submitting a search whose normalised title matches an existing
node (case-insensitively, underscores read as spaces) never issues a
fresh root merge: an existing Main node is only focused with the graph
unchanged, an existing Sub node is expanded through exactly the
node-click path, and no duplicate node is created (the resulting node
ids stay duplicate-free). -/
theorem search_existing_node (input : String) (g : GraphData) (n : WikiNode)
    (hraw : toRawInput input ≠ "")
    (hfind : g.nodes.find? (fun nd => jsToLower nd.id == searchKey input) = some n) :
    (∀ t, searchDispatch input g.nodes ≠ SearchAction.freshSearch t) ∧
    (n.group = Group.main →
      searchDispatch input g.nodes = SearchAction.focusExisting n.id ∧
      ∀ fetched cjit jitS jitE, searchSubmitStep input fetched cjit jitS jitE g = g) ∧
    (n.group = Group.sub →
      searchDispatch input g.nodes = SearchAction.expandExisting n ∧
      ∀ d cjit jitS jitE,
        searchSubmitStep input (some d) cjit jitS jitE g = expandUpdate n.id d jitE g) ∧
    (∀ d cjit jitS jitE, (g.nodes.map (·.id)).Nodup →
      ((searchSubmitStep input (some d) cjit jitS jitE g).nodes.map (·.id)).Nodup) := by
  have hb : (toRawInput input == "") = false := beq_eq_false_iff_ne.mpr hraw
  have hdisp : searchDispatch input g.nodes =
      if n.group == Group.sub then SearchAction.expandExisting n
      else SearchAction.focusExisting n.id := by
    unfold searchDispatch
    show (if (toRawInput input == "") = true then SearchAction.noop
      else match g.nodes.find? (fun nd => jsToLower nd.id == searchKey input) with
        | some existingNode =>
            if existingNode.group == Group.sub then
              SearchAction.expandExisting existingNode
            else SearchAction.focusExisting existingNode.id
        | none => SearchAction.freshSearch (toRawInput input)) = _
    rw [hb]
    simp only [Bool.false_eq_true, if_false]
    rw [hfind]
  refine ⟨?_, ?_, ?_, ?_⟩
  · intro t
    rw [hdisp]
    by_cases hg : (n.group == Group.sub) = true
    · rw [if_pos hg]; intro hcontra; cases hcontra
    · rw [if_neg hg]; intro hcontra; cases hcontra
  · intro hmain
    have hns : (n.group == Group.sub) = false := by rw [hmain]; decide
    have hd : searchDispatch input g.nodes = SearchAction.focusExisting n.id := by
      rw [hdisp, hns]
      simp
    refine ⟨hd, ?_⟩
    intro fetched cjit jitS jitE
    unfold searchSubmitStep
    rw [hd]
  · intro hsub
    have hns : (n.group == Group.sub) = true := by rw [hsub]; decide
    have hd : searchDispatch input g.nodes = SearchAction.expandExisting n := by
      rw [hdisp, hns]
      simp
    refine ⟨hd, ?_⟩
    intro d cjit jitS jitE
    unfold searchSubmitStep
    rw [hd]
  · intro d cjit jitS jitE hnd
    unfold searchSubmitStep
    rw [hdisp]
    by_cases hg : (n.group == Group.sub) = true
    · rw [if_pos hg]
      exact expandNodeMap_ids_nodup n.id d jitE g
    · rw [if_neg hg]
      exact hnd

/-- Witness for C10: searching `"cat food"` against a graph holding the
Sub node `Cat Food` dispatches to the expand path. -/
theorem search_existing_node_witness :
    searchDispatch "cat food" gSearch.nodes =
      SearchAction.expandExisting ⟨"Cat Food", Group.sub, "", none, none, none, none⟩ := by
  have h := search_existing_node "cat food" gSearch
    ⟨"Cat Food", Group.sub, "", none, none, none, none⟩ (by decide) (by decide)
  exact (h.2.2.1 rfl).1

end WikiCluster
